import Mathlib

namespace WordleSolver

abbrev Word := List Char

def firstPass (guess solution : Word) : List Char :=
  (guess.zip solution).map fun p =>
    if p.1 = p.2 then 'g' else if p.1 ∈ solution then 'u' else 'b'

def initCounts (solution res : List Char) (l : Char) : Nat :=
  ((res.zip solution).filter fun p => p.1 ≠ 'g' ∧ p.2 = l).length

def thirdPass : List (Char × Char) → (Char → Nat) → List Char
  | [], _ => []
  | (r, gl) :: rest, counts =>
    if r = 'u' then
      if counts gl ≠ 0 then
        'y' :: thirdPass rest (fun c => if c = gl then counts gl - 1 else counts c)
      else
        'b' :: thirdPass rest counts
    else r :: thirdPass rest counts

def wordle_result (guess solution : Word) : List Char :=
  thirdPass ((firstPass guess solution).zip guess)
    (initCounts solution (firstPass guess solution))

def specCounts (guess solution : Word) (l : Char) : Nat :=
  ((guess.zip solution).filter fun p => p.1 ≠ p.2 ∧ p.2 = l).length

def specScan : List (Char × Char) → (Char → Nat) → List Char
  | [], _ => []
  | (gl, sl) :: rest, counts =>
    if gl = sl then 'g' :: specScan rest counts
    else if counts gl ≠ 0 then
      'y' :: specScan rest (fun c => if c = gl then counts gl - 1 else counts c)
    else 'b' :: specScan rest counts

def feedbackSpec (guess solution : Word) : List Char :=
  specScan (guess.zip solution) (specCounts guess solution)

theorem thirdPass_eq_specScan (sol : Word) :
    ∀ (L : List (Char × Char)) (counts : Char → Nat),
      (∀ c, c ∉ sol → counts c = 0) →
      thirdPass (L.map fun p => ((if p.1 = p.2 then 'g' else if p.1 ∈ sol then 'u' else 'b'), p.1))
          counts = specScan L counts := by
  intro L
  induction L with
  | nil => intro counts _; rfl
  | cons p rest ih =>
    intro counts hc
    obtain ⟨gl, sl⟩ := p
    by_cases hm : gl = sl
    · simp only [List.map_cons, if_pos hm, thirdPass, specScan]
      simp only [show ('g' : Char) ≠ 'u' by decide, if_neg, if_pos hm]
      simp [ih counts hc]
    · by_cases hmem : gl ∈ sol
      · simp only [List.map_cons, if_neg hm, if_pos hmem, thirdPass, specScan, if_neg hm]
        simp only [show ('u' : Char) = 'u' from rfl, if_pos]
        by_cases hz : counts gl ≠ 0
        · simp only [if_pos hz]
          congr 1
          apply ih
          intro c hcs
          by_cases hcg : c = gl
          · exact absurd (hcg ▸ hmem) hcs
          · simp only [if_neg hcg]; exact hc c hcs
        · simp only [if_neg hz]
          simp [ih counts hc]
      · have hz : counts gl = 0 := hc gl hmem
        simp only [List.map_cons, if_neg hm, if_neg hmem, thirdPass, specScan, if_neg hm, hz]
        simp [ih counts hc, show ('b' : Char) ≠ 'u' by decide]

theorem initCounts_eq_specCounts (guess solution : Word)
    (h : guess.length = solution.length) :
    initCounts solution (firstPass guess solution) = specCounts guess solution := by
  funext l
  unfold initCounts specCounts firstPass
  have hzip : ((guess.zip solution).map fun p : Char × Char =>
        if p.1 = p.2 then 'g' else if p.1 ∈ solution then 'u' else 'b').zip solution
      = (guess.zip solution).map fun p : Char × Char =>
          ((if p.1 = p.2 then 'g' else if p.1 ∈ solution then 'u' else 'b'), p.2) := by
    rw [show ((guess.zip solution).map fun p : Char × Char =>
          if p.1 = p.2 then 'g' else if p.1 ∈ solution then 'u' else 'b').zip solution
        = ((guess.zip solution).map fun p : Char × Char =>
            if p.1 = p.2 then 'g' else if p.1 ∈ solution then 'u' else 'b').zip
            ((guess.zip solution).map Prod.snd) by
      rw [List.map_snd_zip guess solution (le_of_eq h.symm)]]
    exact List.zip_map' _ _ _
  rw [hzip, List.filter_map, List.length_map]
  congr 1
  apply List.filter_congr
  intro p _
  by_cases hm : p.1 = p.2
  · simp [hm]
  · by_cases hmem : p.1 ∈ solution <;> simp [hm, hmem]

theorem wordle_result_eq_feedbackSpec (guess solution : Word)
    (h : guess.length = solution.length) :
    wordle_result guess solution = feedbackSpec guess solution := by
  unfold wordle_result feedbackSpec
  rw [initCounts_eq_specCounts guess solution h]
  rw [show (firstPass guess solution).zip guess
      = ((guess.zip solution).map fun p =>
          ((if p.1 = p.2 then 'g' else if p.1 ∈ solution then 'u' else 'b'), p.1)) from ?_]
  · apply thirdPass_eq_specScan
    intro c hcs
    unfold specCounts
    rw [List.length_eq_zero]
    rw [List.filter_eq_nil_iff]
    intro p hp
    have hmem : p.2 ∈ solution := (List.of_mem_zip hp).2
    simp only [decide_eq_true_eq, not_and, ne_eq]
    intro _ h2
    exact hcs (h2 ▸ hmem)
  · unfold firstPass
    rw [show ((guess.zip solution).map fun p : Char × Char =>
          if p.1 = p.2 then 'g' else if p.1 ∈ solution then 'u' else 'b').zip guess
        = ((guess.zip solution).map fun p : Char × Char =>
            if p.1 = p.2 then 'g' else if p.1 ∈ solution then 'u' else 'b').zip
            ((guess.zip solution).map Prod.fst) by
      rw [List.map_fst_zip guess solution (le_of_eq h)]]
    exact List.zip_map' _ _ _


/-- Number of non-green slots for letter `l` strictly before position `k`. -/
def slotsBefore (L : List (Char × Char)) (k : Nat) (l : Char) : Nat :=
  ((L.take k).filter fun p => p.1 = l ∧ p.1 ≠ p.2).length

/-- The mark the scan assigns at position `k`: green on a match, present while
earlier non-green slots of the same letter have not exhausted the counter. -/
def markAt (L : List (Char × Char)) (counts : Char → Nat) (k : Nat) : Char :=
  if (L.getD k ('?', '?')).1 = (L.getD k ('?', '?')).2 then 'g'
  else if slotsBefore L k (L.getD k ('?', '?')).1 < counts (L.getD k ('?', '?')).1 then 'y'
  else 'b'

theorem slotsBefore_cons (p : Char × Char) (rest : List (Char × Char)) (k : Nat) (l : Char) :
    slotsBefore (p :: rest) (k + 1) l =
      slotsBefore rest k l + (if p.1 = l ∧ p.1 ≠ p.2 then 1 else 0) := by
  unfold slotsBefore
  rw [List.take_succ_cons]
  by_cases h : p.1 = l ∧ p.1 ≠ p.2
  · have h2 : ¬ l = p.2 := by
      intro hbad
      exact h.2 (h.1.trans hbad)
    simp [List.filter_cons, h.1, h2, Nat.add_comm]
  · by_cases h1 : p.1 = l
    · have h2 : l = p.2 := by
        by_contra hbad
        exact h ⟨h1, fun he => hbad (h1.symm.trans he)⟩
      simp [List.filter_cons, h1, h2]
    · simp [List.filter_cons, h1]

theorem specScan_eq_map_markAt :
    ∀ (L : List (Char × Char)) (counts : Char → Nat),
      specScan L counts = (List.range L.length).map (markAt L counts) := by
  intro L
  induction L with
  | nil => intro counts; rfl
  | cons p rest ih =>
    intro counts
    obtain ⟨gl, sl⟩ := p
    rw [show ((gl, sl) :: rest).length = rest.length + 1 from rfl,
      List.range_succ_eq_map, List.map_cons, List.map_map]
    have h0 : markAt ((gl, sl) :: rest) counts 0 =
        (if gl = sl then 'g' else if counts gl ≠ 0 then 'y' else 'b') := by
      unfold markAt slotsBefore
      simp [Nat.pos_iff_ne_zero]
    by_cases hm : gl = sl
    · have hstep : ∀ k, markAt rest counts k = markAt ((gl, sl) :: rest) counts (k + 1) := by
        intro k
        unfold markAt
        rw [List.getD_cons_succ, slotsBefore_cons]
        have hc0 : ¬ ((gl, sl).1 = (rest.getD k ('?', '?')).1 ∧ (gl, sl).1 ≠ (gl, sl).2) := by
          intro hh
          exact hh.2 hm
        rw [if_neg hc0, Nat.add_zero]
      rw [specScan, if_pos hm, ih, h0, if_pos hm]
      congr 1
      exact List.map_congr_left fun k _ => hstep k
    · by_cases hz : counts gl ≠ 0
      · have hstep : ∀ k,
            markAt rest (fun c => if c = gl then counts gl - 1 else counts c) k =
              markAt ((gl, sl) :: rest) counts (k + 1) := by
          intro k
          unfold markAt
          rw [List.getD_cons_succ, slotsBefore_cons]
          generalize rest.getD k ('?', '?') = q
          obtain ⟨m, s2⟩ := q
          by_cases hm2 : m = s2
          · rw [if_pos hm2, if_pos hm2]
          · rw [if_neg hm2, if_neg hm2]
            by_cases heq : m = gl
            · subst heq
              have hbeta : (fun c => if c = m then counts m - 1 else counts c) (m, s2).1
                  = counts m - 1 := by
                simp
              rw [hbeta]
              have hc1 : ((m, sl).1 = (m, s2).1 ∧ (m, sl).1 ≠ (m, sl).2) := ⟨rfl, hm⟩
              rw [if_pos hc1]
              have hiff : (slotsBefore rest k (m, s2).1 < counts m - 1) ↔
                  (slotsBefore rest k (m, s2).1 + 1 < counts m) := by
                omega
              rw [if_congr hiff rfl rfl]
            · have hbeta : (fun c => if c = gl then counts gl - 1 else counts c) (m, s2).1
                  = counts m := by
                simp [heq]
              rw [hbeta]
              have hc0 : ¬ ((gl, sl).1 = (m, s2).1 ∧ (gl, sl).1 ≠ (gl, sl).2) := by
                intro hh
                exact heq hh.1.symm
              rw [if_neg hc0, Nat.add_zero]
        rw [specScan, if_neg hm, if_pos hz, ih, h0, if_neg hm, if_pos hz]
        congr 1
        exact List.map_congr_left fun k _ => hstep k
      · have hz0 : counts gl = 0 := by omega
        have hstep : ∀ k,
            markAt rest counts k = markAt ((gl, sl) :: rest) counts (k + 1) := by
          intro k
          unfold markAt
          rw [List.getD_cons_succ, slotsBefore_cons]
          generalize rest.getD k ('?', '?') = q
          obtain ⟨m, s2⟩ := q
          by_cases hm2 : m = s2
          · rw [if_pos hm2, if_pos hm2]
          · rw [if_neg hm2, if_neg hm2]
            by_cases heq : m = gl
            · subst heq
              have hc1 : ((m, sl).1 = (m, s2).1 ∧ (m, sl).1 ≠ (m, sl).2) := ⟨rfl, hm⟩
              rw [if_pos hc1]
              have h1 : ¬ (slotsBefore rest k (m, s2).1 < counts m) := by
                omega
              have h2 : ¬ (slotsBefore rest k (m, s2).1 + 1 < counts m) := by
                omega
              rw [if_neg h1, if_neg h2]
            · have hc0 : ¬ ((gl, sl).1 = (m, s2).1 ∧ (gl, sl).1 ≠ (gl, sl).2) := by
                intro hh
                exact heq hh.1.symm
              rw [if_neg hc0, Nat.add_zero]
        rw [specScan, if_neg hm, if_neg hz, ih, h0, if_neg hm, if_neg hz]
        congr 1
        exact List.map_congr_left fun k _ => hstep k


/-! ### Per-letter mark counting -/

/-- Non-green slots (guess letter `l`, mismatch) over the whole pair list. -/
def slotCount (L : List (Char × Char)) (l : Char) : Nat :=
  (L.filter fun p => p.1 = l ∧ p.1 ≠ p.2).length

/-- Matched (green) positions whose guess letter is `l`. -/
def matchCount (L : List (Char × Char)) (l : Char) : Nat :=
  (L.filter fun p => p.1 = l ∧ p.1 = p.2).length

/-- Number of scan positions with guess letter `l` that receive mark `m`. -/
def outCount (L : List (Char × Char)) (counts : Char → Nat) (l m : Char) : Nat :=
  (((L.map Prod.fst).zip (specScan L counts)).filter fun q => q.1 = l ∧ q.2 = m).length

theorem slotCount_cons (gl sl : Char) (rest : List (Char × Char)) (l : Char) :
    slotCount ((gl, sl) :: rest) l =
      (if gl = l ∧ gl ≠ sl then 1 else 0) + slotCount rest l := by
  unfold slotCount
  rw [List.filter_cons]
  by_cases h1 : gl = l
  · subst h1
    by_cases h2 : gl = sl
    · simp [h2]
    · simp [h2, Nat.add_comm]
  · simp [h1]

theorem matchCount_cons (gl sl : Char) (rest : List (Char × Char)) (l : Char) :
    matchCount ((gl, sl) :: rest) l =
      (if gl = l ∧ gl = sl then 1 else 0) + matchCount rest l := by
  unfold matchCount
  rw [List.filter_cons]
  by_cases h1 : gl = l
  · subst h1
    by_cases h2 : gl = sl
    · simp [h2, Nat.add_comm]
    · simp [h2]
  · simp [h1]

theorem outCount_cons (gl sl : Char) (rest : List (Char × Char)) (counts : Char → Nat)
    (l m : Char) :
    outCount ((gl, sl) :: rest) counts l m =
      if gl = sl then
        (if gl = l ∧ 'g' = m then 1 else 0) + outCount rest counts l m
      else if counts gl ≠ 0 then
        (if gl = l ∧ 'y' = m then 1 else 0) +
          outCount rest (fun c => if c = gl then counts gl - 1 else counts c) l m
      else
        (if gl = l ∧ 'b' = m then 1 else 0) + outCount rest counts l m := by
  unfold outCount
  rw [List.map_cons, specScan]
  by_cases hm : gl = sl
  · rw [if_pos hm, if_pos hm, List.zip_cons_cons, List.filter_cons]
    by_cases h1 : gl = l
    · subst h1
      by_cases h2 : ('g' : Char) = m
      · subst h2
        simp [Nat.add_comm]
      · simp [h2]
    · simp [h1]
  · rw [if_neg hm, if_neg hm]
    by_cases hz : counts gl ≠ 0
    · rw [if_pos hz, if_pos hz, List.zip_cons_cons, List.filter_cons]
      by_cases h1 : gl = l
      · subst h1
        by_cases h2 : ('y' : Char) = m
        · subst h2
          simp [Nat.add_comm]
        · simp [h2]
      · simp [h1]
    · rw [if_neg hz, if_neg hz, List.zip_cons_cons, List.filter_cons]
      by_cases h1 : gl = l
      · subst h1
        by_cases h2 : ('b' : Char) = m
        · subst h2
          simp [Nat.add_comm]
        · simp [h2]
      · simp [h1]

/-- The number of Present marks for a letter is the number of its non-green
slots, clamped by the available counter. -/
theorem outCount_y :
    ∀ (L : List (Char × Char)) (counts : Char → Nat) (l : Char),
      outCount L counts l 'y' = min (slotCount L l) (counts l) := by
  intro L
  induction L with
  | nil => intro counts l; simp [outCount, slotCount, specScan]
  | cons p rest ih =>
    intro counts l
    obtain ⟨gl, sl⟩ := p
    rw [outCount_cons, slotCount_cons]
    by_cases hl : gl = l
    · subst hl
      by_cases hm : gl = sl
      · simp [hm, ih]
      · by_cases hz : counts gl = 0
        · simp [hm, hz, ih]
        · simp [hm, hz, ih]
          omega
    · have h2 : ¬ l = gl := fun hh => hl hh.symm
      simp [hl, h2, ih]

/-- Green marks for a letter are exactly its matched positions. -/
theorem outCount_g :
    ∀ (L : List (Char × Char)) (counts : Char → Nat) (l : Char),
      outCount L counts l 'g' = matchCount L l := by
  intro L
  induction L with
  | nil => intro counts l; simp [outCount, matchCount, specScan]
  | cons p rest ih =>
    intro counts l
    obtain ⟨gl, sl⟩ := p
    rw [outCount_cons, matchCount_cons]
    by_cases hl : gl = l
    · subst hl
      by_cases hm : gl = sl
      · simp [hm, ih]
      · by_cases hz : counts gl = 0
        · simp [hm, hz, ih]
        · simp [hm, hz, ih]
    · have h2 : ¬ l = gl := fun hh => hl hh.symm
      simp [hl, h2, ih]

/-- Present and Absent marks for a letter exhaust its non-green slots. -/
theorem outCount_y_add_b :
    ∀ (L : List (Char × Char)) (counts : Char → Nat) (l : Char),
      outCount L counts l 'y' + outCount L counts l 'b' = slotCount L l := by
  intro L
  induction L with
  | nil => intro counts l; simp [outCount, slotCount, specScan]
  | cons p rest ih =>
    intro counts l
    obtain ⟨gl, sl⟩ := p
    rw [outCount_cons, outCount_cons, slotCount_cons]
    by_cases hl : gl = l
    · subst hl
      by_cases hm : gl = sl
      · simp [hm, ih]
      · by_cases hz : counts gl = 0
        · simp [hm, hz]
          have := ih counts gl
          omega
        · simp [hm, hz]
          have := ih (fun c => if c = gl then counts gl - 1 else counts c) gl
          omega
    · have h2 : ¬ l = gl := fun hh => hl hh.symm
      simp [hl, h2]
      by_cases hm : gl = sl
      · simp [hm, ih]
      · by_cases hz : counts gl = 0
        · simp [hm, hz, ih]
        · simp [hm, hz, ih]


/-! ### Bridging word-level counts to pair-list counts -/

theorem count_eq_filter_length (xs : List Char) (c : Char) :
    xs.count c = (xs.filter fun x => x = c).length := by
  rw [List.count, List.countP_eq_length_filter]
  congr 1

theorem length_filter_split (L : List (Char × Char)) (P Q : Char × Char → Prop)
    [DecidablePred P] [DecidablePred Q] :
    (L.filter fun a => P a).length =
      (L.filter fun a => P a ∧ Q a).length + (L.filter fun a => P a ∧ ¬ Q a).length := by
  induction L with
  | nil => rfl
  | cons p rest ih =>
    rw [List.filter_cons, List.filter_cons, List.filter_cons]
    by_cases hp : P p <;> by_cases hq : Q p <;> simp [hp, hq, ih] <;> omega

/-- The guess-letter count splits into matched and non-green-slot positions. -/
theorem count_fst_split (g s : Word) (h : g.length = s.length) (l : Char) :
    g.count l = matchCount (g.zip s) l + slotCount (g.zip s) l := by
  have hg : g = (g.zip s).map Prod.fst := (List.map_fst_zip g s (le_of_eq h)).symm
  have h1 : g.count l = ((g.zip s).filter fun p => decide (p.1 = l)).length := by
    rw [count_eq_filter_length]
    conv_lhs => rw [hg]
    rw [List.filter_map, List.length_map]
    congr 1
  unfold matchCount slotCount
  rw [h1, length_filter_split (g.zip s) (fun p => p.1 = l) (fun p => p.1 = p.2)]

/-- The solution-letter count splits into matched positions and the counter. -/
theorem count_snd_split (g s : Word) (h : g.length = s.length) (l : Char) :
    s.count l = matchCount (g.zip s) l + specCounts g s l := by
  have hs : s = (g.zip s).map Prod.snd := (List.map_snd_zip g s (le_of_eq h.symm)).symm
  have h1 : s.count l = ((g.zip s).filter fun p => decide (p.2 = l)).length := by
    rw [count_eq_filter_length]
    conv_lhs => rw [hs]
    rw [List.filter_map, List.length_map]
    congr 1
  unfold matchCount specCounts
  rw [h1, length_filter_split (g.zip s) (fun p => p.2 = l) (fun p => p.1 = p.2)]
  congr 1
  · congr 1
    apply List.filter_congr
    intro p _
    simp only [decide_eq_decide]
    constructor
    · intro hh
      exact ⟨hh.2.trans hh.1, hh.2⟩
    · intro hh
      exact ⟨hh.2.symm.trans hh.1, hh.2⟩
  · congr 1
    apply List.filter_congr
    intro p _
    simp only [decide_eq_decide]
    tauto


/-! ## `SolutionGroup.filter_solutions` (wordle_solver.py lines 366-430)

All the set operations the Python method performs use statistics computed
once before the loop, so membership of a solution `s` in the filtered set is
the conjunction of the membership conditions of each intersection/difference:
we embed the method as a `Finset.filter` by that conjunction. -/

/-- Number of positions whose guess letter is `l` and whose mark in the result
is `m` (the `correct_count` / `present_count` / `absent_count` loop). -/
def markCount (w r : Word) (l m : Char) : Nat :=
  ((w.zip r).filter fun q => q.1 = l ∧ q.2 = m).length

/-- Conditions imposed by the per-index loop of `filter_solutions`:
`'g'` intersects with `byPosition[i][w[i]]`; otherwise that set is subtracted;
`'y'` additionally intersects with `contains[w[i]]`; `'b'` additionally
subtracts `contains[w[i]]` when the letter occurs nowhere else in `w`. -/
def keepIdx (w r s : Word) (i : Nat) : Prop :=
  (r.getD i ' ' = 'g' → s.getD i ' ' = w.getD i ' ') ∧
  (r.getD i ' ' ≠ 'g' → s.getD i ' ' ≠ w.getD i ' ') ∧
  (r.getD i ' ' = 'y' → w.getD i ' ' ∈ s) ∧
  (r.getD i ' ' = 'b' → w.count (w.getD i ' ') ≤ 1 → w.getD i ' ' ∉ s)

/-- Conditions imposed by the repeated-letter loop of `filter_solutions`:
with `a`/`p`/`c` the absent/present/correct counts of a letter, an absent mark
beside a present/correct one pins the solution count to `p + c`; all-absent
bans the letter; no absent mark gives the lower bound `p + c`. -/
def dupCond (w r s : Word) (l : Char) : Prop :=
  (0 < markCount w r l 'b' → 0 < markCount w r l 'y' + markCount w r l 'g' →
    s.count l = markCount w r l 'y' + markCount w r l 'g') ∧
  (0 < markCount w r l 'b' → markCount w r l 'y' + markCount w r l 'g' = 0 →
    l ∉ s) ∧
  (markCount w r l 'b' = 0 →
    ∀ k ∈ List.range (markCount w r l 'y' + markCount w r l 'g'), 1 ≤ k →
      s.count l ≠ k)

/-- A solution `s` survives `filter_solutions(w, r)` exactly when it satisfies
every per-index condition and every repeated-letter condition. -/
def keeps (w r s : Word) : Prop :=
  (∀ i ∈ List.range w.length, keepIdx w r s i) ∧
  (∀ l ∈ w.dedup, 1 < w.count l → dupCond w r s l)

instance keepIdx.decidable (w r s : Word) (i : Nat) : Decidable (keepIdx w r s i) := by
  unfold keepIdx
  infer_instance

instance dupCond.decidable (w r s : Word) (l : Char) : Decidable (dupCond w r s l) := by
  unfold dupCond
  infer_instance

instance keeps.decidable (w r s : Word) : Decidable (keeps w r s) := by
  unfold keeps
  infer_instance

/-- `SolutionGroup.filter_solutions(word, result)`: remove solutions that are
not consistent with the played word and its feedback. -/
def filter_solutions (w r : Word) (S : Finset Word) : Finset Word :=
  S.filter fun s => keeps w r s

/-! ### The true solution always survives its own feedback -/

theorem markCount_eq_outCount (g s : Word) (h : g.length = s.length) (l m : Char) :
    markCount g (wordle_result g s) l m = outCount (g.zip s) (specCounts g s) l m := by
  have key : ∀ (L : List (Char × Char)) (counts : Char → Nat), g = L.map Prod.fst →
      ((g.zip (specScan L counts)).filter fun q => q.1 = l ∧ q.2 = m).length
        = outCount L counts l m := by
    intro L counts hg
    rw [hg]
    rfl
  unfold markCount
  rw [wordle_result_eq_feedbackSpec g s h]
  unfold feedbackSpec
  exact key (g.zip s) (specCounts g s) (List.map_fst_zip g s (le_of_eq h)).symm

theorem wordle_result_getD (g s : Word) (h : g.length = s.length) (i : Nat)
    (hi : i < g.length) :
    (wordle_result g s).getD i ' ' = markAt (g.zip s) (specCounts g s) i := by
  rw [wordle_result_eq_feedbackSpec g s h]
  unfold feedbackSpec
  rw [specScan_eq_map_markAt]
  have hiL : i < (g.zip s).length := by
    rw [List.length_zip]
    omega
  rw [List.getD_eq_getElem?_getD, List.getElem?_map, List.getElem?_range hiL]
  rfl

theorem zip_getD (g s : Word) (h : g.length = s.length) (i : Nat) (hi : i < g.length) :
    (g.zip s).getD i ('?', '?') = (g.getD i ' ', s.getD i ' ') := by
  have hiL : i < (g.zip s).length := by
    rw [List.length_zip]
    omega
  have his : i < s.length := by omega
  rw [List.getD_eq_getElem?_getD, List.getElem?_eq_getElem hiL, List.getElem_zip,
    List.getD_eq_getElem?_getD, List.getElem?_eq_getElem hi,
    List.getD_eq_getElem?_getD, List.getElem?_eq_getElem his]
  rfl

theorem dupCond_wordle_result (g s : Word) (h : g.length = s.length) (l : Char) :
    dupCond g (wordle_result g s) s l := by
  have hy := outCount_y (g.zip s) (specCounts g s) l
  have hgr := outCount_g (g.zip s) (specCounts g s) l
  have hyb := outCount_y_add_b (g.zip s) (specCounts g s) l
  have hsplit := count_snd_split g s h l
  unfold dupCond
  rw [markCount_eq_outCount g s h l 'y', markCount_eq_outCount g s h l 'g',
    markCount_eq_outCount g s h l 'b']
  refine ⟨?_, ?_, ?_⟩
  · intro hb hpc
    omega
  · intro hb hpc
    rw [← List.count_eq_zero (l := s) (a := l)]
    omega
  · intro hb k hk h1
    rw [List.mem_range] at hk
    omega

theorem getD_eq_getElem_of_lt (g : List Char) (i : Nat) (hi : i < g.length) :
    g.getD i ' ' = g[i] := by
  rw [List.getD_eq_getElem?_getD, List.getElem?_eq_getElem hi]
  rfl

theorem keepIdx_wordle_result (g s : Word) (h : g.length = s.length) (i : Nat)
    (hi : i < g.length) : keepIdx g (wordle_result g s) s i := by
  have hr := wordle_result_getD g s h i hi
  have hq := zip_getD g s h i hi
  unfold keepIdx
  rw [hr]
  unfold markAt
  rw [hq]
  dsimp only
  by_cases hm : g.getD i ' ' = s.getD i ' '
  · rw [if_pos hm]
    exact ⟨fun _ => hm.symm, fun hc => absurd rfl hc, fun hc => absurd hc (by decide),
      fun hc => absurd hc (by decide)⟩
  · rw [if_neg hm]
    by_cases hylt : slotsBefore (g.zip s) i (g.getD i ' ') < specCounts g s (g.getD i ' ')
    · rw [if_pos hylt]
      refine ⟨fun hc => absurd hc (by decide), fun _ hse => hm hse.symm, fun _ => ?_,
        fun hc => absurd hc (by decide)⟩
      have hpos : 0 < specCounts g s (g.getD i ' ') := by omega
      unfold specCounts at hpos
      obtain ⟨p, hp⟩ := List.exists_mem_of_length_pos hpos
      rw [List.mem_filter] at hp
      obtain ⟨p1, p2⟩ := p
      have hps : p2 ∈ s := (List.of_mem_zip hp.1).2
      have hpl : p2 = g.getD i ' ' := by
        have h2 := hp.2
        simp only [decide_eq_true_eq] at h2
        exact h2.2
      rw [← hpl]
      exact hps
    · rw [if_neg hylt]
      refine ⟨fun hc => absurd hc (by decide), fun _ hse => hm hse.symm,
        fun hc => absurd hc (by decide), fun _ hcount => ?_⟩
      have hgi : g.getD i ' ' = g[i] := getD_eq_getElem_of_lt g i hi
      have his : i < s.length := by omega
      have hsi : s.getD i ' ' = s[i] := getD_eq_getElem_of_lt s i his
      have htake : (g.take i).count (g.getD i ' ') = 0 := by
        have hsplit := List.count_append (g.getD i ' ') (g.take i) (g.drop i)
        rw [List.take_append_drop] at hsplit
        have hdrop : 0 < (g.drop i).count (g.getD i ' ') := by
          rw [hgi, List.drop_eq_getElem_cons hi, List.count_cons]
          simp
        omega
      have hslot0 : slotsBefore (g.zip s) i (g.getD i ' ') = 0 := by
        have htz : (g.zip s).take i = (g.take i).zip (s.take i) := by
          simp [List.zip, List.take_zipWith]
        have hlen : (g.take i).length = (s.take i).length := by
          simp [h]
        have hcnt := count_fst_split (g.take i) (s.take i) hlen (g.getD i ' ')
        have hsb : slotsBefore (g.zip s) i (g.getD i ' ') =
            slotCount ((g.take i).zip (s.take i)) (g.getD i ' ') := by
          unfold slotsBefore slotCount
          rw [htz]
        omega
      have hc0 : specCounts g s (g.getD i ' ') = 0 := by omega
      have hcfs := count_fst_split g s h (g.getD i ' ')
      have hslotpos : 0 < slotCount (g.zip s) (g.getD i ' ') := by
        have hiL : i < (g.zip s).length := by
          rw [List.length_zip]
          omega
        have hmem : (g.zip s)[i] ∈ (g.zip s).filter
            fun p => decide (p.1 = g.getD i ' ' ∧ p.1 ≠ p.2) := by
          rw [List.mem_filter]
          refine ⟨List.getElem_mem hiL, ?_⟩
          rw [List.getElem_zip]
          simp only [decide_eq_true_eq]
          constructor
          · rw [hgi]
          · rw [← hgi, ← hsi]
            exact hm
        unfold slotCount
        exact List.length_pos_of_mem hmem
      have hsnd := count_snd_split g s h (g.getD i ' ')
      rw [← List.count_eq_zero (a := g.getD i ' ') (l := s)]
      omega

/-- The played solution satisfies all the retention conditions of
`filter_solutions` run against its own feedback. -/
theorem keeps_wordle_result (g s : Word) (h : g.length = s.length) :
    keeps g (wordle_result g s) s := by
  constructor
  · intro i hi
    rw [List.mem_range] at hi
    exact keepIdx_wordle_result g s h i hi
  · intro l _ _
    exact dupCond_wordle_result g s h l


/-- Every mark the scan emits is one of `'g'`, `'y'`, `'b'`. -/
theorem specScan_mem_values :
    ∀ (L : List (Char × Char)) (counts : Char → Nat),
      ∀ x ∈ specScan L counts, x = 'g' ∨ x = 'y' ∨ x = 'b' := by
  intro L
  induction L with
  | nil => intro counts x hx; simp [specScan] at hx
  | cons p rest ih =>
    intro counts x hx
    obtain ⟨gl, sl⟩ := p
    rw [specScan] at hx
    by_cases hm : gl = sl
    · rw [if_pos hm] at hx
      rcases List.mem_cons.mp hx with h1 | h1
      · exact Or.inl h1
      · exact ih counts x h1
    · rw [if_neg hm] at hx
      by_cases hz : counts gl ≠ 0
      · rw [if_pos hz] at hx
        rcases List.mem_cons.mp hx with h1 | h1
        · exact Or.inr (Or.inl h1)
        · exact ih _ x h1
      · rw [if_neg hz] at hx
        rcases List.mem_cons.mp hx with h1 | h1
        · exact Or.inr (Or.inr h1)
        · exact ih counts x h1

/-- If the scan emits only green marks, every pair was a match. -/
theorem specScan_all_green :
    ∀ (Q : List (Char × Char)) (counts : Char → Nat),
      (∀ x ∈ specScan Q counts, x = 'g') → ∀ q ∈ Q, q.1 = q.2 := by
  intro Q
  induction Q with
  | nil => intro counts _ q hq; simp at hq
  | cons p rest ih =>
    intro counts hall q hq
    obtain ⟨gl, sl⟩ := p
    rw [specScan] at hall
    by_cases hm : gl = sl
    · rw [if_pos hm] at hall
      rcases List.mem_cons.mp hq with h1 | h1
      · rw [h1]
        exact hm
      · exact ih counts (fun x hx => hall x (List.mem_cons_of_mem _ hx)) q h1
    · rw [if_neg hm] at hall
      by_cases hz : counts gl ≠ 0
      · rw [if_pos hz] at hall
        exact absurd (hall 'y' (List.mem_cons_self _ _)) (by decide)
      · rw [if_neg hz] at hall
        exact absurd (hall 'b' (List.mem_cons_self _ _)) (by decide)

/-- If the scan output is green marks followed by a Present mark, the input
splits into matched pairs, then a mismatched pair whose guess letter still had
a positive counter, then the rest. -/
theorem specScan_decomp_y :
    ∀ (L : List (Char × Char)) (counts : Char → Nat) (A B : List Char),
      specScan L counts = A ++ 'y' :: B → (∀ x ∈ A, x = 'g') →
      ∃ P p Q, L = P ++ p :: Q ∧ (∀ q ∈ P, q.1 = q.2) ∧ p.1 ≠ p.2 ∧
        counts p.1 ≠ 0 ∧
        specScan Q (fun c => if c = p.1 then counts p.1 - 1 else counts c) = B := by
  intro L
  induction L with
  | nil =>
    intro counts A B hAB _
    rw [show specScan [] counts = [] from rfl] at hAB
    exact absurd hAB.symm (List.append_ne_nil_of_right_ne_nil A (by simp))
  | cons p rest ih =>
    intro counts A B hAB hAg
    obtain ⟨gl, sl⟩ := p
    rw [specScan] at hAB
    by_cases hm : gl = sl
    · rw [if_pos hm] at hAB
      match A, hAB, hAg with
      | [], hAB, _ =>
        exact absurd (List.cons.inj hAB).1 (by decide)
      | a :: A2, hAB, hAg =>
        have ha : a = 'g' := hAg a (List.mem_cons_self _ _)
        obtain ⟨_, hAB2⟩ := List.cons.inj hAB
        obtain ⟨P, q, Q, hL, hP, hqm, hqc, hQB⟩ :=
          ih counts A2 B hAB2 (fun x hx => hAg x (List.mem_cons_of_mem _ hx))
        refine ⟨(gl, sl) :: P, q, Q, by rw [hL]; rfl, ?_, hqm, hqc, hQB⟩
        intro q2 hq2
        rcases List.mem_cons.mp hq2 with h1 | h1
        · rw [h1]
          exact hm
        · exact hP q2 h1
    · rw [if_neg hm] at hAB
      by_cases hz : counts gl ≠ 0
      · rw [if_pos hz] at hAB
        match A, hAB, hAg with
        | [], hAB, _ =>
          obtain ⟨_, hAB2⟩ := List.cons.inj hAB
          exact ⟨[], (gl, sl), rest, rfl, by simp, hm, hz, hAB2⟩
        | a :: A2, hAB, hAg =>
          have ha : a = 'g' := hAg a (List.mem_cons_self _ _)
          have := (List.cons.inj hAB).1
          rw [ha] at this
          exact absurd this (by decide)
      · rw [if_neg hz] at hAB
        match A, hAB, hAg with
        | [], hAB, _ =>
          exact absurd (List.cons.inj hAB).1 (by decide)
        | a :: A2, hAB, hAg =>
          have ha : a = 'g' := hAg a (List.mem_cons_self _ _)
          have := (List.cons.inj hAB).1
          rw [ha] at this
          exact absurd this (by decide)


/-- The static filter in `possible_results` (wordle_solver.py line 335): a
feedback string is dropped when it has exactly one Present and no Absent. -/
def removedByResultsFilter (r : List Char) : Prop :=
  r.count 'y' = 1 ∧ 'b' ∉ r

theorem not_removed_of_wordle_result (g s : Word) (h : g.length = s.length) :
    ¬ removedByResultsFilter (wordle_result g s) := by
  intro hcon
  obtain ⟨hcy, hb⟩ := hcon
  rw [wordle_result_eq_feedbackSpec g s h] at hcy hb
  unfold feedbackSpec at hcy hb
  have hymem : 'y' ∈ specScan (g.zip s) (specCounts g s) := by
    have hpos : 0 < (specScan (g.zip s) (specCounts g s)).count 'y' := by omega
    exact List.count_pos_iff.mp hpos
  obtain ⟨A, B, hAB⟩ := List.append_of_mem hymem
  rw [hAB, List.count_append, List.count_cons] at hcy
  simp only [beq_self_eq_true, if_pos] at hcy
  have hA0 : A.count 'y' = 0 := by omega
  have hB0 : B.count 'y' = 0 := by omega
  have hA_g : ∀ x ∈ A, x = 'g' := by
    intro x hx
    have hxr : x ∈ specScan (g.zip s) (specCounts g s) := by
      rw [hAB]
      exact List.mem_append_left _ hx
    rcases specScan_mem_values _ _ x hxr with h1 | h1 | h1
    · exact h1
    · subst h1
      have := List.count_pos_iff.mpr hx
      omega
    · subst h1
      exact absurd (by rw [hAB]; exact List.mem_append_left _ hx) hb
  have hB_g : ∀ x ∈ B, x = 'g' := by
    intro x hx
    have hxr : x ∈ specScan (g.zip s) (specCounts g s) := by
      rw [hAB]
      exact List.mem_append_right _ (List.mem_cons_of_mem _ hx)
    rcases specScan_mem_values _ _ x hxr with h1 | h1 | h1
    · exact h1
    · subst h1
      have := List.count_pos_iff.mpr hx
      omega
    · subst h1
      exact absurd (by rw [hAB]; exact List.mem_append_right _ (List.mem_cons_of_mem _ hx)) hb
  obtain ⟨P, p, Q, hL, hP, hpm, hpc, hQB⟩ :=
    specScan_decomp_y (g.zip s) (specCounts g s) A B hAB hA_g
  have hQ : ∀ q ∈ Q, q.1 = q.2 := by
    refine specScan_all_green Q
      (fun c => if c = p.1 then specCounts g s p.1 - 1 else specCounts g s c) ?_
    rw [hQB]
    exact hB_g
  have hc0 : specCounts g s p.1 = 0 := by
    unfold specCounts
    rw [hL, List.filter_append, List.filter_cons, List.length_append]
    have h1 : (P.filter fun q => decide (q.1 ≠ q.2 ∧ q.2 = p.1)) = [] := by
      rw [List.filter_eq_nil_iff]
      intro q hq
      simp only [decide_eq_true_eq, not_and, ne_eq]
      intro hc
      exact absurd (hP q hq) hc
    have h2 : ¬ (p.1 ≠ p.2 ∧ p.2 = p.1) := by
      intro hc
      exact hpm (hc.2.symm)
    have h3 : (Q.filter fun q => decide (q.1 ≠ q.2 ∧ q.2 = p.1)) = [] := by
      rw [List.filter_eq_nil_iff]
      intro q hq
      simp only [decide_eq_true_eq, not_and, ne_eq]
      intro hc
      exact absurd (hQ q hq) hc
    rw [h1, h3]
    simp [h2]
  exact hpc hc0

/-- The implementation feedback on equal words is all-Correct, and conversely. -/
theorem wordle_result_all_green_iff (g s : Word) (n : Nat)
    (hg : g.length = n) (hs : s.length = n) :
    wordle_result g s = List.replicate n 'g' ↔ g = s := by
  have h : g.length = s.length := hg.trans hs.symm
  constructor
  · intro hr
    apply List.ext_getElem h
    intro i h1 h2
    have hgd : (wordle_result g s).getD i ' ' = 'g' := by
      rw [hr, List.getD_eq_getElem?_getD,
        List.getElem?_eq_getElem (by rw [List.length_replicate]; omega),
        List.getElem_replicate]
      rfl
    rw [wordle_result_getD g s h i h1] at hgd
    unfold markAt at hgd
    rw [zip_getD g s h i h1] at hgd
    dsimp only at hgd
    by_cases hm : g.getD i ' ' = s.getD i ' '
    · rw [getD_eq_getElem_of_lt g i h1, getD_eq_getElem_of_lt s i h2] at hm
      exact hm
    · rw [if_neg hm] at hgd
      by_cases hy : slotsBefore (g.zip s) i (g.getD i ' ') < specCounts g s (g.getD i ' ')
      · rw [if_pos hy] at hgd
        exact absurd hgd (by decide)
      · rw [if_neg hy] at hgd
        exact absurd hgd (by decide)
  · intro he
    subst he
    rw [List.eq_replicate_iff]
    constructor
    · rw [wordle_result_eq_feedbackSpec g g rfl]
      unfold feedbackSpec
      rw [specScan_eq_map_markAt, List.length_map, List.length_range, List.length_zip]
      rw [hg]
      simp
    · intro b hbm
      rw [wordle_result_eq_feedbackSpec g g rfl] at hbm
      unfold feedbackSpec at hbm
      rw [specScan_eq_map_markAt] at hbm
      obtain ⟨i, hi, hmark⟩ := List.mem_map.mp hbm
      rw [List.mem_range] at hi
      have hiL : i < g.length := by
        rw [List.length_zip] at hi
        omega
      rw [← hmark]
      unfold markAt
      rw [zip_getD g g rfl i hiL]
      simp

/-- C1: restriction never eliminates the true solution. For every solution
group `S` of words of the variant length, every word `s ∈ S`, and every guess
`g` of the variant length, after `filter_solutions g f S` with
`f = wordle_result g s`, the word `s` is still a member. -/
theorem claim_C1_restriction_retains_solution (S : Finset Word) (g s : Word) (n : Nat)
    (hws : ∀ w ∈ S, w.length = n) (hgl : g.length = n) (hs : s ∈ S) :
    s ∈ filter_solutions g (wordle_result g s) S := by
  unfold filter_solutions
  rw [Finset.mem_filter]
  refine ⟨hs, keeps_wordle_result g s ?_⟩
  rw [hgl, hws s hs]

theorem claim_C1_witness :
    (∀ w ∈ ({['a', 'b', 'b'], ['b', 'b', 'a']} : Finset Word), w.length = 3) ∧
      (['a', 'b', 'a'] : Word).length = 3 ∧
      ['b', 'b', 'a'] ∈ ({['a', 'b', 'b'], ['b', 'b', 'a']} : Finset Word) ∧
      ['b', 'b', 'a'] ∈ filter_solutions ['a', 'b', 'a']
        (wordle_result ['a', 'b', 'a'] ['b', 'b', 'a'])
        ({['a', 'b', 'b'], ['b', 'b', 'a']} : Finset Word) :=
  ⟨by decide, by decide, by decide,
    claim_C1_restriction_retains_solution _ ['a', 'b', 'a'] ['b', 'b', 'a'] 3
      (by decide) (by decide) (by decide)⟩

/-- C2: the feedback function implements left-to-right consumption for
duplicated letters: for every guess and solution of the variant length,
`wordle_result` equals the spec-side scan `feedbackSpec` (Correct exactly on
matches; Present exactly while an unconsumed occurrence remains, scanning left
to right and decrementing; Absent otherwise). -/
theorem claim_C2_feedback_left_to_right (g s : Word) (n : Nat)
    (hg : g.length = n) (hs : s.length = n) :
    wordle_result g s = feedbackSpec g s :=
  wordle_result_eq_feedbackSpec g s (hg.trans hs.symm)

theorem claim_C2_witness :
    (['a', 'a', 'b'] : Word).length = 3 ∧ (['b', 'a', 'a'] : Word).length = 3 ∧
      wordle_result ['a', 'a', 'b'] ['b', 'a', 'a'] = feedbackSpec ['a', 'a', 'b'] ['b', 'a', 'a'] :=
  ⟨by decide, by decide, claim_C2_feedback_left_to_right ['a', 'a', 'b'] ['b', 'a', 'a'] 3 rfl rfl⟩

/-- C5: soundness of the static feedback filter: the feedback of any
guess/solution pair of equal length never has exactly one Present mark with no
Absent mark, so the `possible_results` filter never drops a realizable
feedback. -/
theorem claim_C5_results_filter_sound (g s : Word) (n : Nat)
    (hg : g.length = n) (hs : s.length = n) :
    ¬ removedByResultsFilter (wordle_result g s) :=
  not_removed_of_wordle_result g s (hg.trans hs.symm)

theorem claim_C5_witness :
    (['a', 'b'] : Word).length = 2 ∧ (['b', 'a'] : Word).length = 2 ∧
      ¬ removedByResultsFilter (wordle_result ['a', 'b'] ['b', 'a']) :=
  ⟨by decide, by decide, claim_C5_results_filter_sound ['a', 'b'] ['b', 'a'] 2 rfl rfl⟩

/-- C9: the all-Correct feedback characterizes equality: for words of the
variant length, `wordle_result g s` is `'g'` at every position iff `g = s`. -/
theorem claim_C9_all_correct_iff_eq (g s : Word) (n : Nat)
    (hg : g.length = n) (hs : s.length = n) :
    wordle_result g s = List.replicate n 'g' ↔ g = s :=
  wordle_result_all_green_iff g s n hg hs

theorem claim_C9_witness :
    (['a', 'b'] : Word).length = 2 ∧ (['a', 'b'] : Word).length = 2 ∧
      (wordle_result ['a', 'b'] ['a', 'b'] = List.replicate 2 'g' ↔
        (['a', 'b'] : Word) = ['a', 'b']) :=
  ⟨by decide, by decide, claim_C9_all_correct_iff_eq ['a', 'b'] ['a', 'b'] 2 rfl rfl⟩


/-! ## `SolutionGroup.partition` (wordle_solver.py lines 460-478)

The dictionary built by `partition` groups the solutions by their feedback
against the guess: its key set is the image of `wordle_result guess` over the
group and the bucket of a key is the preimage inside the group. -/

/-- The set of feedback keys `partition(guess)` produces. -/
def partitionKeys (g : Word) (S : Finset Word) : Finset (List Char) :=
  S.image fun s => wordle_result g s

/-- The bucket of `partition(guess)` keyed by feedback `r`. -/
def partitionOf (g : Word) (S : Finset Word) (r : List Char) : Finset Word :=
  S.filter fun s => wordle_result g s = r

/-- C3: partition completeness and disjointness: for every guess and non-empty
solution group, the yielded partitions are non-empty and pairwise disjoint,
their union is the whole group, and a word lies exactly in the partition keyed
by its own feedback. -/
theorem claim_C3_partition_complete (g : Word) (S : Finset Word) (hS : S.Nonempty) :
    (∀ r ∈ partitionKeys g S, (partitionOf g S r).Nonempty) ∧
    (∀ r1 r2 : List Char, r1 ≠ r2 → Disjoint (partitionOf g S r1) (partitionOf g S r2)) ∧
    (partitionKeys g S).biUnion (partitionOf g S) = S ∧
    (∀ w ∈ S, ∀ r : List Char, w ∈ partitionOf g S r ↔ r = wordle_result g w) := by
  refine ⟨?_, ?_, ?_, ?_⟩
  · intro r hr
    rw [partitionKeys, Finset.mem_image] at hr
    obtain ⟨s, hs, hrs⟩ := hr
    exact ⟨s, by rw [partitionOf, Finset.mem_filter]; exact ⟨hs, hrs⟩⟩
  · intro r1 r2 hne
    rw [Finset.disjoint_left]
    intro a ha1 ha2
    rw [partitionOf, Finset.mem_filter] at ha1 ha2
    exact hne (ha1.2.symm.trans ha2.2)
  · apply Finset.ext
    intro w
    rw [Finset.mem_biUnion]
    constructor
    · rintro ⟨r, _, hw⟩
      exact (Finset.mem_filter.mp hw).1
    · intro hw
      exact ⟨wordle_result g w, Finset.mem_image_of_mem _ hw,
        Finset.mem_filter.mpr ⟨hw, rfl⟩⟩
  · intro w hw r
    rw [partitionOf, Finset.mem_filter]
    constructor
    · rintro ⟨_, h2⟩
      exact h2.symm
    · intro hh
      exact ⟨hw, hh.symm⟩

theorem claim_C3_witness :
    (({['a', 'b'], ['b', 'a']} : Finset Word)).Nonempty ∧
      ((∀ r ∈ partitionKeys ['a', 'a'] {['a', 'b'], ['b', 'a']},
          (partitionOf ['a', 'a'] {['a', 'b'], ['b', 'a']} r).Nonempty) ∧
        (∀ r1 r2 : List Char, r1 ≠ r2 →
          Disjoint (partitionOf ['a', 'a'] {['a', 'b'], ['b', 'a']} r1)
            (partitionOf ['a', 'a'] {['a', 'b'], ['b', 'a']} r2)) ∧
        (partitionKeys ['a', 'a'] {['a', 'b'], ['b', 'a']}).biUnion
            (partitionOf ['a', 'a'] {['a', 'b'], ['b', 'a']}) =
          {['a', 'b'], ['b', 'a']} ∧
        (∀ w ∈ ({['a', 'b'], ['b', 'a']} : Finset Word), ∀ r : List Char,
          w ∈ partitionOf ['a', 'a'] {['a', 'b'], ['b', 'a']} r ↔
            r = wordle_result ['a', 'a'] w)) :=
  ⟨⟨['a', 'b'], by decide⟩,
    claim_C3_partition_complete ['a', 'a'] {['a', 'b'], ['b', 'a']} ⟨['a', 'b'], by decide⟩⟩


/-! ## `_result_key` and the partition iteration order
(wordle_solver.py lines 343-360, 474-475)

`_result_key(result)` is the pair `(space, symbol tuple)` with
`space = count(b) + 2*count(y) + 4*count(g)` and the per-position symbol order
`b=0, y=1, g=2`; `sortdict` sorts the partition keys ascending by this key.
The key is injective on feedback strings, so to sort through `Finset.sort` we
extend the key comparison with a tie-break on the word itself; the tie-break
never fires for distinct feedback strings. -/

/-- The fixed symbol order used as tie-break: `b = 0 < y = 1 < g = 2`. -/
def symOrd (l : Char) : Nat :=
  if l = 'b' then 0 else if l = 'y' then 1 else 2

/-- `_result_key`: weighted letter count, then the fixed symbol order. -/
def resultKey (r : List Char) : Nat × List Nat :=
  (r.count 'b' + 2 * r.count 'y' + 4 * r.count 'g', r.map symOrd)

/-- Python tuple comparison on key values: lexicographic. -/
def kLt (x y : Nat × List Nat) : Prop :=
  x.1 < y.1 ∨ (x.1 = y.1 ∧ x.2 < y.2)

instance kLt.decidable (x y : Nat × List Nat) : Decidable (kLt x y) := by
  unfold kLt
  infer_instance

theorem kLt_trans {x y z : Nat × List Nat} (h1 : kLt x y) (h2 : kLt y z) : kLt x z := by
  unfold kLt at h1 h2 ⊢
  rcases h1 with h1 | ⟨h1a, h1b⟩ <;> rcases h2 with h2 | ⟨h2a, h2b⟩
  · exact Or.inl (h1.trans h2)
  · exact Or.inl (h2a ▸ h1)
  · exact Or.inl (h1a ▸ h2)
  · exact Or.inr ⟨h1a.trans h2a, h1b.trans h2b⟩

theorem kLt_irrefl (x : Nat × List Nat) : ¬ kLt x x := by
  unfold kLt
  rintro (h | ⟨_, h⟩) <;> exact absurd h (lt_irrefl _)

theorem kLt_trichotomy (x y : Nat × List Nat) : kLt x y ∨ x = y ∨ kLt y x := by
  unfold kLt
  rcases lt_trichotomy x.1 y.1 with h | h | h
  · exact Or.inl (Or.inl h)
  · rcases lt_trichotomy x.2 y.2 with h2 | h2 | h2
    · exact Or.inl (Or.inr ⟨h, h2⟩)
    · exact Or.inr (Or.inl (Prod.ext h h2))
    · exact Or.inr (Or.inr (Or.inr ⟨h.symm, h2⟩))
  · exact Or.inr (Or.inr (Or.inl h))

/-- Strict order of the sort on partition keys. -/
def keyLt (a b : List Char) : Prop :=
  kLt (resultKey a) (resultKey b)

instance keyLt.decidable (a b : List Char) : Decidable (keyLt a b) := by
  unfold keyLt
  infer_instance

/-- Sorting relation derived from a key function: key order with a word
tie-break, so that it is a total antisymmetric order on all words (on feedback
strings, where the keys are injective, it coincides with the pure key order). -/
def keyOrd (f : List Char → Nat × List Nat) (a b : List Char) : Prop :=
  kLt (f a) (f b) ∨ (f a = f b ∧ a ≤ b)

instance keyOrd.decidable (f : List Char → Nat × List Nat) (a b : List Char) :
    Decidable (keyOrd f a b) := by
  unfold keyOrd
  infer_instance

instance keyOrd.isTrans (f : List Char → Nat × List Nat) : IsTrans (List Char) (keyOrd f) := by
  constructor
  intro a b c h1 h2
  unfold keyOrd at h1 h2 ⊢
  rcases h1 with h1 | ⟨h1a, h1b⟩ <;> rcases h2 with h2 | ⟨h2a, h2b⟩
  · exact Or.inl (kLt_trans h1 h2)
  · exact Or.inl (by rw [← h2a]; exact h1)
  · exact Or.inl (by rw [h1a]; exact h2)
  · exact Or.inr ⟨h1a.trans h2a, h1b.trans h2b⟩

instance keyOrd.isAntisymm (f : List Char → Nat × List Nat) :
    IsAntisymm (List Char) (keyOrd f) := by
  constructor
  intro a b h1 h2
  unfold keyOrd at h1 h2
  rcases h1 with h1 | ⟨h1a, h1b⟩ <;> rcases h2 with h2 | ⟨h2a, h2b⟩
  · exact absurd (kLt_trans h1 h2) (kLt_irrefl _)
  · rw [h2a] at h1
    exact absurd h1 (kLt_irrefl _)
  · rw [h1a] at h2
    exact absurd h2 (kLt_irrefl _)
  · exact le_antisymm h1b h2b

instance keyOrd.isTotal (f : List Char → Nat × List Nat) : IsTotal (List Char) (keyOrd f) := by
  constructor
  intro a b
  unfold keyOrd
  rcases kLt_trichotomy (f a) (f b) with h | h | h
  · exact Or.inl (Or.inl h)
  · rcases le_total a b with h2 | h2
    · exact Or.inl (Or.inr ⟨h, h2⟩)
    · exact Or.inr (Or.inr ⟨h.symm, h2⟩)
  · exact Or.inr (Or.inl h)

/-- The implementation's sorting relation, from `_result_key`. -/
abbrev keyLe : List Char → List Char → Prop := keyOrd resultKey

/-! ### Enumerating and sorting the partition keys

The kernel-evaluable embedding of `sortdict(partitions, key = _result_key)`:
the distinct partition keys sorted ascending by `_result_key` are obtained by
filtering a sorted enumeration of every feedback string of the word length
(the key is injective on feedback strings, so the order is unique). -/

/-- All feedback strings of a given length. -/
def allResults : Nat → List (List Char)
  | 0 => [[]]
  | n + 1 =>
    ((allResults n).map fun r => 'b' :: r) ++
      ((allResults n).map fun r => 'y' :: r) ++
      ((allResults n).map fun r => 'g' :: r)

theorem mem_allResults :
    ∀ (n : Nat) (r : List Char),
      r ∈ allResults n ↔ r.length = n ∧ ∀ c ∈ r, c = 'b' ∨ c = 'y' ∨ c = 'g' := by
  intro n
  induction n with
  | zero =>
    intro r
    constructor
    · intro hr
      rw [show allResults 0 = [[]] from rfl] at hr
      rcases List.mem_singleton.mp hr with h
      subst h
      exact ⟨rfl, by simp⟩
    · intro ⟨hlen, _⟩
      rw [List.length_eq_zero] at hlen
      subst hlen
      exact List.mem_singleton.mpr rfl
  | succ n ih =>
    intro r
    rw [show allResults (n + 1) =
      ((allResults n).map fun r => 'b' :: r) ++
        ((allResults n).map fun r => 'y' :: r) ++
        ((allResults n).map fun r => 'g' :: r) from rfl]
    constructor
    · intro hr
      rcases List.mem_append.mp hr with h1 | h1
      · rcases List.mem_append.mp h1 with h2 | h2 <;>
          · obtain ⟨r2, hr2, hcons⟩ := List.mem_map.mp h2
            subst hcons
            obtain ⟨hlen, hchars⟩ := (ih r2).mp hr2
            refine ⟨by simp [hlen], ?_⟩
            intro c hc
            rcases List.mem_cons.mp hc with h3 | h3
            · subst h3
              simp
            · exact hchars c h3
      · obtain ⟨r2, hr2, hcons⟩ := List.mem_map.mp h1
        subst hcons
        obtain ⟨hlen, hchars⟩ := (ih r2).mp hr2
        refine ⟨by simp [hlen], ?_⟩
        intro c hc
        rcases List.mem_cons.mp hc with h3 | h3
        · subst h3
          simp
        · exact hchars c h3
    · intro ⟨hlen, hchars⟩
      match r with
      | [] => simp at hlen
      | c :: r2 =>
        have hr2 : r2 ∈ allResults n := by
          rw [ih r2]
          refine ⟨by simpa using hlen, ?_⟩
          intro c2 hc2
          exact hchars c2 (List.mem_cons_of_mem _ hc2)
        rcases hchars c (List.mem_cons_self _ _) with h1 | h1 | h1 <;> subst h1
        · exact List.mem_append.mpr (Or.inl (List.mem_append.mpr (Or.inl
            (List.mem_map.mpr ⟨r2, hr2, rfl⟩))))
        · exact List.mem_append.mpr (Or.inl (List.mem_append.mpr (Or.inr
            (List.mem_map.mpr ⟨r2, hr2, rfl⟩))))
        · exact List.mem_append.mpr (Or.inr (List.mem_map.mpr ⟨r2, hr2, rfl⟩))

theorem nodup_allResults : ∀ n, (allResults n).Nodup := by
  intro n
  induction n with
  | zero => exact List.nodup_singleton _
  | succ n ih =>
    have hinj : ∀ c : Char, Function.Injective fun r : List Char => c :: r := by
      intro c r1 r2 h12
      exact (List.cons.inj h12).2
    rw [show allResults (n + 1) =
      ((allResults n).map fun r => 'b' :: r) ++
        ((allResults n).map fun r => 'y' :: r) ++
        ((allResults n).map fun r => 'g' :: r) from rfl]
    rw [List.nodup_append, List.nodup_append]
    refine ⟨⟨ih.map (hinj 'b'), ih.map (hinj 'y'), ?_⟩, ih.map (hinj 'g'), ?_⟩
    · intro a ha hb
      obtain ⟨r1, _, h1⟩ := List.mem_map.mp ha
      obtain ⟨r2, _, h2⟩ := List.mem_map.mp hb
      rw [← h2] at h1
      exact absurd (List.cons.inj h1).1 (by decide)
    · intro a ha hb
      obtain ⟨r2, _, h2⟩ := List.mem_map.mp hb
      rcases List.mem_append.mp ha with h1 | h1 <;>
        · obtain ⟨r1, _, h1e⟩ := List.mem_map.mp h1
          rw [← h2] at h1e
          exact absurd (List.cons.inj h1e).1 (by decide)

/-- The feedback of equal-length words has the words' length. -/
theorem wordle_result_length (g s : Word) (h : g.length = s.length) :
    (wordle_result g s).length = g.length := by
  rw [wordle_result_eq_feedbackSpec g s h]
  unfold feedbackSpec
  rw [specScan_eq_map_markAt, List.length_map, List.length_range, List.length_zip]
  omega

/-- Every character of a feedback produced on equal-length words is g/y/b. -/
theorem wordle_result_chars (g s : Word) (h : g.length = s.length) :
    ∀ c ∈ wordle_result g s, c = 'g' ∨ c = 'y' ∨ c = 'b' := by
  rw [wordle_result_eq_feedbackSpec g s h]
  exact specScan_mem_values _ _

theorem wordle_result_mem_allResults (g s : Word) (n : Nat)
    (hg : g.length = n) (hs : s.length = n) :
    wordle_result g s ∈ allResults n := by
  have h : g.length = s.length := hg.trans hs.symm
  rw [mem_allResults]
  refine ⟨by rw [wordle_result_length g s h, hg], ?_⟩
  intro c hc
  rcases wordle_result_chars g s h c hc with h1 | h1 | h1
  · exact Or.inr (Or.inr h1)
  · exact Or.inr (Or.inl h1)
  · exact Or.inl h1

/-- The sorted list of partition keys, as `sortdict` orders them. -/
def sortedPartKeys (n : Nat) (g : Word) (S : Finset Word) : List (List Char) :=
  (List.insertionSort keyLe (allResults n)).filter fun r => decide (r ∈ partitionKeys g S)

/-- `SolutionGroup.guess_rank(guess)`: fold over the sorted partitions,
tracking the largest bucket and the first feedback achieving it, then add the
partition-count tie-break `1 / (partitions + 1)`. -/
def guess_rank (n : Nat) (g : Word) (S : Finset Word) : ℚ × Option (List Char) :=
  let keys := sortedPartKeys n g S
  let fold := keys.foldl
    (fun acc r =>
      if (partitionOf g S r).card > acc.1 then ((partitionOf g S r).card, some r) else acc)
    (0, none)
  ((fold.1 : ℚ) + 1 / (keys.length + 1), fold.2)
/-! ### Analysis of the `guess_rank` fold -/

/-- The loop body of `guess_rank`. -/
def foldStep (size : List Char → Nat) (acc : Nat × Option (List Char)) (r : List Char) :
    Nat × Option (List Char) :=
  if size r > acc.1 then (size r, some r) else acc

/-- Largest size occurring in a key list. -/
def listMaxSize (size : List Char → Nat) (keys : List (List Char)) : Nat :=
  keys.foldr (fun k m => max (size k) m) 0

theorem fold_fst (size : List Char → Nat) :
    ∀ (keys : List (List Char)) (b : Nat) (fo : Option (List Char)),
      (List.foldl (foldStep size) (b, fo) keys).1 = max b (listMaxSize size keys) := by
  intro keys
  induction keys with
  | nil => intro b fo; simp [listMaxSize]
  | cons k rest ih =>
    intro b fo
    rw [List.foldl_cons,
      show foldStep size (b, fo) k = if size k > b then (size k, some k) else (b, fo) from rfl,
      show listMaxSize size (k :: rest) = max (size k) (listMaxSize size rest) from rfl]
    by_cases h : size k > b
    · rw [if_pos h, ih (size k) (some k)]
      omega
    · rw [if_neg h, ih b fo]
      omega

theorem fold_stable (size : List Char → Nat) :
    ∀ (keys : List (List Char)) (b : Nat) (fo : Option (List Char)),
      listMaxSize size keys ≤ b →
      List.foldl (foldStep size) (b, fo) keys = (b, fo) := by
  intro keys
  induction keys with
  | nil => intro b fo _; rfl
  | cons k rest ih =>
    intro b fo hle
    rw [show listMaxSize size (k :: rest) = max (size k) (listMaxSize size rest) from rfl] at hle
    rw [List.foldl_cons,
      show foldStep size (b, fo) k = if size k > b then (size k, some k) else (b, fo) from rfl]
    rw [if_neg (by omega)]
    exact ih b fo (by omega)

theorem fold_first_argmax (size : List Char → Nat) :
    ∀ (keys : List (List Char)) (b : Nat) (fo : Option (List Char)),
      b < listMaxSize size keys →
      ∃ pre f post, keys = pre ++ f :: post ∧
        size f = listMaxSize size keys ∧
        (∀ k ∈ pre, size k < listMaxSize size keys) ∧
        (List.foldl (foldStep size) (b, fo) keys).2 = some f := by
  intro keys
  induction keys with
  | nil =>
    intro b fo hb
    unfold listMaxSize at hb
    simp at hb
  | cons k rest ih =>
    intro b fo hb
    have hMdef : listMaxSize size (k :: rest) = max (size k) (listMaxSize size rest) := rfl
    rw [List.foldl_cons,
      show foldStep size (b, fo) k = if size k > b then (size k, some k) else (b, fo) from rfl]
    by_cases hM : size k = listMaxSize size (k :: rest)
    · have hgt : size k > b := by omega
      rw [if_pos hgt]
      have hrest : listMaxSize size rest ≤ size k := by omega
      refine ⟨[], k, rest, rfl, hM, by simp, ?_⟩
      rw [fold_stable size rest (size k) (some k) hrest]
    · have hklt : size k < listMaxSize size (k :: rest) := by
        rw [hMdef]
        omega
      have hMrest : listMaxSize size (k :: rest) = listMaxSize size rest := by
        rw [hMdef]
        omega
      by_cases hgt : size k > b
      · rw [if_pos hgt]
        obtain ⟨pre, f, post, hsplit, hf, hpre, hfold⟩ :=
          ih (size k) (some k) (by omega)
        refine ⟨k :: pre, f, post, by rw [hsplit]; rfl, by rw [hMrest]; exact hf, ?_, hfold⟩
        intro k2 hk2
        rcases List.mem_cons.mp hk2 with h1 | h1
        · rw [h1]
          exact hklt
        · rw [hMrest]
          exact hpre k2 h1
      · rw [if_neg hgt]
        obtain ⟨pre, f, post, hsplit, hf, hpre, hfold⟩ := ih b fo (by omega)
        refine ⟨k :: pre, f, post, by rw [hsplit]; rfl, by rw [hMrest]; exact hf, ?_, hfold⟩
        intro k2 hk2
        rcases List.mem_cons.mp hk2 with h1 | h1
        · rw [h1]
          exact hklt
        · rw [hMrest]
          exact hpre k2 h1

theorem le_listMaxSize (size : List Char → Nat) :
    ∀ (keys : List (List Char)), ∀ k ∈ keys, size k ≤ listMaxSize size keys := by
  intro keys
  induction keys with
  | nil => intro k hk; simp at hk
  | cons k2 rest ih =>
    intro k hk
    have : listMaxSize size (k2 :: rest) = max (size k2) (listMaxSize size rest) := rfl
    rcases List.mem_cons.mp hk with h1 | h1
    · rw [h1]
      omega
    · have := ih k h1
      omega

theorem listMaxSize_cases (size : List Char → Nat) :
    ∀ (keys : List (List Char)),
      listMaxSize size keys = 0 ∨ ∃ k ∈ keys, size k = listMaxSize size keys := by
  intro keys
  induction keys with
  | nil => exact Or.inl rfl
  | cons k2 rest ih =>
    have hdef : listMaxSize size (k2 :: rest) = max (size k2) (listMaxSize size rest) := rfl
    by_cases h : listMaxSize size rest ≤ size k2
    · exact Or.inr ⟨k2, List.mem_cons_self _ _, by omega⟩
    · rcases ih with h1 | ⟨k, hk, hsk⟩
      · omega
      · exact Or.inr ⟨k, List.mem_cons_of_mem _ hk, by omega⟩




/-! ### Characterizing the `guess_rank` score and foil -/

/-- The symbol-order component of the key determines a feedback string. -/
theorem symOrd_map_inj :
    ∀ (a b : List Char), (∀ c ∈ a, c = 'g' ∨ c = 'y' ∨ c = 'b') →
      (∀ c ∈ b, c = 'g' ∨ c = 'y' ∨ c = 'b') → a.map symOrd = b.map symOrd → a = b := by
  intro a
  induction a with
  | nil =>
    intro b _ _ hm
    have := congrArg List.length hm
    simp at this
    exact (List.length_eq_zero.mp this.symm).symm
  | cons c a2 ih =>
    intro b hbA hbB hm
    match b with
    | [] => simp at hm
    | d :: b2 =>
      rw [List.map_cons, List.map_cons] at hm
      obtain ⟨h1, h2⟩ := List.cons.inj hm
      have hcd : c = d := by
        rcases hbA c (List.mem_cons_self _ _) with hc | hc | hc <;>
          rcases hbB d (List.mem_cons_self _ _) with hd | hd | hd <;>
          subst hc <;> subst hd <;> first
            | rfl
            | (exfalso; revert h1; decide)
      rw [hcd, ih b2 (fun x hx => hbA x (List.mem_cons_of_mem _ hx))
        (fun x hx => hbB x (List.mem_cons_of_mem _ hx)) h2]

theorem mem_sortedPartKeys (n : Nat) (g : Word) (S : Finset Word)
    (hws : ∀ w ∈ S, w.length = n) (hg : g.length = n) (r : List Char) :
    r ∈ sortedPartKeys n g S ↔ r ∈ partitionKeys g S := by
  unfold sortedPartKeys
  rw [List.mem_filter]
  constructor
  · intro ⟨_, h2⟩
    simpa using h2
  · intro hr
    refine ⟨?_, by simpa using hr⟩
    rw [(List.perm_insertionSort keyLe (allResults n)).mem_iff]
    rw [partitionKeys, Finset.mem_image] at hr
    obtain ⟨s, hsS, hrs⟩ := hr
    rw [← hrs]
    exact wordle_result_mem_allResults g s n hg (hws s hsS)

theorem nodup_sortedPartKeys (n : Nat) (g : Word) (S : Finset Word) :
    (sortedPartKeys n g S).Nodup := by
  unfold sortedPartKeys
  exact List.Nodup.filter _
    (((List.perm_insertionSort keyLe (allResults n)).nodup_iff).mpr (nodup_allResults n))

theorem length_sortedPartKeys (n : Nat) (g : Word) (S : Finset Word)
    (hws : ∀ w ∈ S, w.length = n) (hg : g.length = n) :
    (sortedPartKeys n g S).length = (partitionKeys g S).card := by
  have hnd := nodup_sortedPartKeys n g S
  rw [← List.toFinset_card_of_nodup hnd]
  congr 1
  apply Finset.ext
  intro r
  rw [List.mem_toFinset]
  exact mem_sortedPartKeys n g S hws hg r

/-- Distinct feedback keys of a guess are strictly ordered in the sorted list. -/
theorem sortedPartKeys_pairwise (n : Nat) (g : Word) (S : Finset Word) :
    List.Pairwise keyLt (sortedPartKeys n g S) := by
  have hsorted : List.Sorted keyLe (sortedPartKeys n g S) :=
    List.Pairwise.sublist (List.filter_sublist _)
      (List.sorted_insertionSort keyLe (allResults n))
  have hnodup := nodup_sortedPartKeys n g S
  have hbyg : ∀ r ∈ sortedPartKeys n g S, ∀ c ∈ r, c = 'g' ∨ c = 'y' ∨ c = 'b' := by
    intro r hr
    have hmem : r ∈ allResults n := by
      unfold sortedPartKeys at hr
      rw [List.mem_filter] at hr
      have := hr.1
      rw [(List.perm_insertionSort keyLe (allResults n)).mem_iff] at this
      exact this
    rw [mem_allResults] at hmem
    intro c hc
    rcases hmem.2 c hc with h1 | h1 | h1
    · exact Or.inr (Or.inr h1)
    · exact Or.inr (Or.inl h1)
    · exact Or.inl h1
  have hpw := List.Pairwise.and hsorted (List.Pairwise.imp (fun hne => hne) hnodup)
  refine List.Pairwise.imp_of_mem ?_ hpw
  intro a b ha hb hab
  rcases hab.1 with h1 | ⟨h1a, _⟩
  · exact h1
  · exact absurd (symOrd_map_inj a b (hbyg a ha) (hbyg b hb) (congrArg Prod.snd h1a))
      hab.2

/-- The minimax count: size of the largest feedback partition. -/
def maxPartSize (g : Word) (S : Finset Word) : Nat :=
  (partitionKeys g S).sup fun r => (partitionOf g S r).card

theorem listMaxSize_sortedPartKeys (n : Nat) (g : Word) (S : Finset Word)
    (hws : ∀ w ∈ S, w.length = n) (hg : g.length = n) :
    listMaxSize (fun r => (partitionOf g S r).card) (sortedPartKeys n g S) =
      maxPartSize g S := by
  apply le_antisymm
  · rcases listMaxSize_cases (fun r => (partitionOf g S r).card) (sortedPartKeys n g S) with
      h | ⟨k, hk, hsk⟩
    · omega
    · rw [← hsk]
      rw [mem_sortedPartKeys n g S hws hg] at hk
      exact @Finset.le_sup ℕ (List Char) _ _ (partitionKeys g S)
        (fun r => (partitionOf g S r).card) k hk
  · refine Finset.sup_le ?_
    intro r hr
    have hmem : r ∈ sortedPartKeys n g S := (mem_sortedPartKeys n g S hws hg r).mpr hr
    exact le_listMaxSize (fun r => (partitionOf g S r).card) (sortedPartKeys n g S) r hmem

theorem maxPartSize_pos (g : Word) (S : Finset Word) (hS : S.Nonempty) :
    0 < maxPartSize g S := by
  obtain ⟨s, hs⟩ := hS
  have hkey : wordle_result g s ∈ partitionKeys g S := Finset.mem_image_of_mem _ hs
  have hcard : 0 < (partitionOf g S (wordle_result g s)).card := by
    rw [Finset.card_pos]
    exact ⟨s, Finset.mem_filter.mpr ⟨hs, rfl⟩⟩
  have hle : (partitionOf g S (wordle_result g s)).card ≤
      (partitionKeys g S).sup fun r => (partitionOf g S r).card :=
    @Finset.le_sup ℕ (List Char) _ _ (partitionKeys g S)
      (fun r => (partitionOf g S r).card) (wordle_result g s) hkey
  calc 0 < (partitionOf g S (wordle_result g s)).card := hcard
    _ ≤ maxPartSize g S := hle

/-- The score `guess_rank` returns: worst-case partition size plus the
partition-count tie-break. -/
theorem guess_rank_fst (n : Nat) (g : Word) (S : Finset Word)
    (hws : ∀ w ∈ S, w.length = n) (hg : g.length = n) :
    (guess_rank n g S).1 =
      (maxPartSize g S : ℚ) + 1 / ((partitionKeys g S).card + 1) := by
  show ((List.foldl (foldStep fun r => (partitionOf g S r).card) (0, none)
      (sortedPartKeys n g S)).1 : ℚ) + 1 / ((sortedPartKeys n g S).length + 1) = _
  rw [fold_fst, listMaxSize_sortedPartKeys n g S hws hg,
    length_sortedPartKeys n g S hws hg, Nat.max_eq_right (Nat.zero_le _)]

/-- The foil `guess_rank` returns: the largest partition's feedback, first in
`_result_key` order among the ties. -/
theorem guess_rank_foil (n : Nat) (g : Word) (S : Finset Word) (hS : S.Nonempty)
    (hws : ∀ w ∈ S, w.length = n) (hg : g.length = n) :
    ∃ f, (guess_rank n g S).2 = some f ∧ f ∈ partitionKeys g S ∧
      (partitionOf g S f).card = maxPartSize g S ∧
      ∀ r ∈ partitionKeys g S, (partitionOf g S r).card = maxPartSize g S →
        f = r ∨ keyLt f r := by
  have hpos : 0 < listMaxSize (fun r => (partitionOf g S r).card) (sortedPartKeys n g S) := by
    rw [listMaxSize_sortedPartKeys n g S hws hg]
    exact maxPartSize_pos g S hS
  obtain ⟨pre, f, post, hsplit, hf, hpre, hfold⟩ :=
    fold_first_argmax (fun r => (partitionOf g S r).card) (sortedPartKeys n g S) 0 none hpos
  have hsnd : (guess_rank n g S).2 = some f := by
    show (List.foldl (foldStep fun r => (partitionOf g S r).card) (0, none)
      (sortedPartKeys n g S)).2 = some f
    exact hfold
  have hfmem : f ∈ sortedPartKeys n g S := by
    rw [hsplit]
    exact List.mem_append_right _ (List.mem_cons_self _ _)
  have hfkeys : f ∈ partitionKeys g S := (mem_sortedPartKeys n g S hws hg f).mp hfmem
  refine ⟨f, hsnd, hfkeys, by rw [hf, listMaxSize_sortedPartKeys n g S hws hg], ?_⟩
  intro r hr hrcard
  have hrmem : r ∈ sortedPartKeys n g S := (mem_sortedPartKeys n g S hws hg r).mpr hr
  rw [hsplit] at hrmem
  rcases List.mem_append.mp hrmem with h1 | h1
  · exfalso
    have := hpre r h1
    rw [listMaxSize_sortedPartKeys n g S hws hg] at this
    omega
  · rcases List.mem_cons.mp h1 with h2 | h2
    · exact Or.inl h2.symm
    · have hpw := sortedPartKeys_pairwise n g S
      rw [hsplit] at hpw
      have := (List.pairwise_append.mp hpw).2.1
      rw [List.pairwise_cons] at this
      exact Or.inr (this.1 r h2)


/-! ### Claim C4: the prescribed foil order versus the implementation -/

/-- Modelled from the claim: the per-letter weighted count the claim says the
foil tie-break order uses, `Absent = 0`, `Present = 2`, `Correct = 4`, with
the fixed symbol-order tie-break. -/
def claimResultKey (r : List Char) : Nat × List Nat :=
  (2 * r.count 'y' + 4 * r.count 'g', r.map symOrd)

/-- Modelled from the claim: its sorting relation, more-black feedbacks first
(ascending in the claimed weighted count), then the symbol-order tie-break. -/
abbrev claimKeyLe : List Char → List Char → Prop := keyOrd claimResultKey

/-- Modelled from the claim: the foil it prescribes — the feedback of the
first largest partition when iterating the partitions in the claim's order. -/
def claimFoil (n : Nat) (g : Word) (S : Finset Word) : Option (List Char) :=
  let keys := (List.insertionSort claimKeyLe (allResults n)).filter
    fun r => decide (r ∈ partitionKeys g S)
  let fold := keys.foldl
    (fun acc r =>
      if (partitionOf g S r).card > acc.1 then ((partitionOf g S r).card, some r) else acc)
    (0, none)
  fold.2

/-- C4 counterexample: for guess "ab" and solution group {"ba", "bb"} the two
partitions "yy" ↦ {"ba"} and "bg" ↦ {"bb"} are equally large; the
implementation key (which weighs Absent as 1, not 0) sorts "yy" strictly
first and `guess_rank` returns foil "yy", but under the claim's weights the
two feedbacks tie and the symbol-order tie-break puts "bg" first, so the foil
the claim prescribes differs from the one returned. -/
theorem claim_C4_counterexample :
    (guess_rank 2 ['a', 'b'] {['b', 'a'], ['b', 'b']}).2 = some ['y', 'y'] ∧
    claimFoil 2 ['a', 'b'] {['b', 'a'], ['b', 'b']} = some ['b', 'g'] ∧
    (partitionOf ['a', 'b'] {['b', 'a'], ['b', 'b']} ['y', 'y']).card =
      (partitionOf ['a', 'b'] {['b', 'a'], ['b', 'b']} ['b', 'g']).card ∧
    some (['y', 'y'] : List Char) ≠ some ['b', 'g'] :=
  ⟨by decide, by decide, by decide, by decide⟩

/-- C4 amended: for every guess and non-empty solution group of the variant
length, `guess_rank` returns the size of the largest feedback partition plus
`1 / (number of partitions + 1)` as the score, and as foil the feedback of
the largest partition, ties broken by taking the first one in the total order
of `_result_key` — ascending in the per-letter weighted count Absent = 1,
Present = 2, Correct = 4 (not Absent = 0 as claimed), then the fixed symbol
order b < y < g. -/
theorem claim_C4_amended (n : Nat) (g : Word) (S : Finset Word) (hS : S.Nonempty)
    (hws : ∀ w ∈ S, w.length = n) (hg : g.length = n) :
    (guess_rank n g S).1 =
      (maxPartSize g S : ℚ) + 1 / ((partitionKeys g S).card + 1) ∧
    ∃ f, (guess_rank n g S).2 = some f ∧ f ∈ partitionKeys g S ∧
      (partitionOf g S f).card = maxPartSize g S ∧
      ∀ r ∈ partitionKeys g S, (partitionOf g S r).card = maxPartSize g S →
        f = r ∨ keyLt f r :=
  ⟨guess_rank_fst n g S hws hg, guess_rank_foil n g S hS hws hg⟩

theorem claim_C4_witness :
    (({['b', 'a'], ['b', 'b']} : Finset Word)).Nonempty ∧
      (∀ w ∈ ({['b', 'a'], ['b', 'b']} : Finset Word), w.length = 2) ∧
      (['a', 'b'] : Word).length = 2 ∧
      ((guess_rank 2 ['a', 'b'] {['b', 'a'], ['b', 'b']}).1 =
        (maxPartSize ['a', 'b'] {['b', 'a'], ['b', 'b']} : ℚ) +
          1 / ((partitionKeys ['a', 'b'] {['b', 'a'], ['b', 'b']}).card + 1) ∧
      ∃ f, (guess_rank 2 ['a', 'b'] {['b', 'a'], ['b', 'b']}).2 = some f ∧
        f ∈ partitionKeys ['a', 'b'] {['b', 'a'], ['b', 'b']} ∧
        (partitionOf ['a', 'b'] {['b', 'a'], ['b', 'b']} f).card =
          maxPartSize ['a', 'b'] {['b', 'a'], ['b', 'b']} ∧
        ∀ r ∈ partitionKeys ['a', 'b'] {['b', 'a'], ['b', 'b']},
          (partitionOf ['a', 'b'] {['b', 'a'], ['b', 'b']} r).card =
            maxPartSize ['a', 'b'] {['b', 'a'], ['b', 'b']} →
          f = r ∨ keyLt f r) :=
  ⟨⟨['b', 'a'], by decide⟩, by decide, by decide,
    claim_C4_amended 2 ['a', 'b'] {['b', 'a'], ['b', 'b']} ⟨['b', 'a'], by decide⟩
      (by decide) (by decide)⟩


/-! ## The sequential `best_guesses` driver (wordle_solver.py lines 591-624)

The sequential search loop ranks each guess, keeping the list of guesses (and
parallel foils) achieving the minimal rank seen so far; candidate solutions
are iterated first, and after the last of them the loop stops early when the
best rank is below 2; finally the solution-priority override restricts the
best guesses to members of the solution group when any is one. -/

/-- One step of the best-rank tracking loop: take over on a strictly better
rank, append on a tie (`best_rank` starts as `None`). -/
def rankStep (n : Nat) (S : Finset Word)
    (acc : Option ℚ × List Word × List (Option (List Char))) (g : Word) :
    Option ℚ × List Word × List (Option (List Char)) :=
  match acc.1 with
  | none => (some (guess_rank n g S).1, [g], [(guess_rank n g S).2])
  | some br =>
    if (guess_rank n g S).1 < br then
      (some (guess_rank n g S).1, [g], [(guess_rank n g S).2])
    else if (guess_rank n g S).1 = br then
      (acc.1, acc.2.1 ++ [g], acc.2.2 ++ [(guess_rank n g S).2])
    else acc

/-- The ranking loop over a guess list. -/
def rankLoop (n : Nat) (S : Finset Word) (gs : List Word) :
    Option ℚ × List Word × List (Option (List Char)) :=
  gs.foldl (rankStep n S) (none, [], [])

/-- Minimum rank over a guess list, seeded with `b`. -/
def minRankFrom (n : Nat) (S : Finset Word) (b : ℚ) (gs : List Word) : ℚ :=
  gs.foldr (fun g q => min (guess_rank n g S).1 q) b

theorem minRankFrom_cons (n : Nat) (S : Finset Word) (b : ℚ) (g : Word) (gs : List Word) :
    minRankFrom n S b (g :: gs) = min (guess_rank n g S).1 (minRankFrom n S b gs) := rfl

theorem minRankFrom_le_seed (n : Nat) (S : Finset Word) (b : ℚ) :
    ∀ gs, minRankFrom n S b gs ≤ b := by
  intro gs
  induction gs with
  | nil => exact le_refl b
  | cons g rest ih =>
    rw [minRankFrom_cons]
    exact le_trans (min_le_right _ _) ih

theorem minRankFrom_le_mem (n : Nat) (S : Finset Word) (b : ℚ) :
    ∀ gs, ∀ g ∈ gs, minRankFrom n S b gs ≤ (guess_rank n g S).1 := by
  intro gs
  induction gs with
  | nil => intro g hg; simp at hg
  | cons g2 rest ih =>
    intro g hg
    rw [minRankFrom_cons]
    rcases List.mem_cons.mp hg with h1 | h1
    · rw [h1]
      exact min_le_left _ _
    · exact le_trans (min_le_right _ _) (ih g h1)

theorem minRankFrom_seed_lower (n : Nat) (S : Finset Word) (b2 b : ℚ) (h : b2 ≤ b) :
    ∀ gs, minRankFrom n S b2 gs = min b2 (minRankFrom n S b gs) := by
  intro gs
  induction gs with
  | nil =>
    show b2 = min b2 b
    exact (min_eq_left h).symm
  | cons g rest ih =>
    rw [minRankFrom_cons, minRankFrom_cons, ih, min_left_comm]

theorem rankLoop_general (n : Nat) (S : Finset Word) :
    ∀ (gs : List Word) (b : ℚ) (A : List Word) (F : List (Option (List Char))),
      gs.foldl (rankStep n S) (some b, A, F) =
        (some (minRankFrom n S b gs),
         (if minRankFrom n S b gs < b then [] else A) ++
           gs.filter fun x => decide ((guess_rank n x S).1 = minRankFrom n S b gs),
         (if minRankFrom n S b gs < b then [] else F) ++
           (gs.filter fun x => decide ((guess_rank n x S).1 = minRankFrom n S b gs)).map
             fun x => (guess_rank n x S).2) := by
  intro gs
  induction gs with
  | nil =>
    intro b A F
    show (some b, A, F) = _
    rw [show minRankFrom n S b [] = b from rfl]
    simp
  | cons g rest ih =>
    intro b A F
    rw [List.foldl_cons]
    rw [show rankStep n S (some b, A, F) g =
      (if (guess_rank n g S).1 < b then
        (some (guess_rank n g S).1, [g], [(guess_rank n g S).2])
      else if (guess_rank n g S).1 = b then
        (some b, A ++ [g], F ++ [(guess_rank n g S).2])
      else (some b, A, F)) from rfl]
    rw [minRankFrom_cons, List.filter_cons]
    rcases lt_trichotomy (guess_rank n g S).1 b with hlt | heq | hgt
    · rw [if_pos hlt, ih]
      have hseed : minRankFrom n S (guess_rank n g S).1 rest =
          min (guess_rank n g S).1 (minRankFrom n S b rest) :=
        minRankFrom_seed_lower n S _ b (le_of_lt hlt) rest
      rw [hseed]
      have hM : min (guess_rank n g S).1 (minRankFrom n S b rest) < b :=
        lt_of_le_of_lt (min_le_left _ _) hlt
      have hm2 : min (guess_rank n g S).1 (minRankFrom n S b rest) ≤ (guess_rank n g S).1 :=
        min_le_left _ _
      rcases lt_or_eq_of_le hm2 with hcase | hcase
      · have hx : ¬ ((guess_rank n g S).1 =
            min (guess_rank n g S).1 (minRankFrom n S b rest)) :=
          fun hc => (ne_of_lt hcase) hc.symm
        simp [hcase, hx, hM]
      · rw [hcase]
        simp [hM, lt_irrefl, not_le_of_gt hlt]
    · rw [if_neg (by rw [heq]; exact lt_irrefl b), if_pos heq, ih]
      subst heq
      have hm : minRankFrom n S (guess_rank n g S).1 rest ≤ (guess_rank n g S).1 :=
        minRankFrom_le_seed n S _ rest
      rw [min_eq_right hm]
      rcases lt_or_eq_of_le hm with hcase | hcase
      · have hx : ¬ ((guess_rank n g S).1 = minRankFrom n S (guess_rank n g S).1 rest) :=
          fun hc => (ne_of_gt hcase) hc
        simp [hcase, hx]
      · rw [hcase]
        simp [lt_irrefl]
    · rw [if_neg (not_lt_of_gt hgt), if_neg (fun hc => absurd hc (ne_of_gt hgt)), ih]
      have hm : minRankFrom n S b rest ≤ b := minRankFrom_le_seed n S b rest
      rw [min_eq_right (le_trans hm (le_of_lt hgt))]
      have hne : ¬ ((guess_rank n g S).1 = minRankFrom n S b rest) := by
        intro hc
        have hb : (guess_rank n g S).1 ≤ b := hc ▸ hm
        exact absurd hb (not_le_of_gt hgt)
      simp [hne]


theorem minRankFrom_attained (n : Nat) (S : Finset Word) :
    ∀ (gs : List Word) (b : ℚ),
      minRankFrom n S b gs = b ∨ ∃ g ∈ gs, (guess_rank n g S).1 = minRankFrom n S b gs := by
  intro gs
  induction gs with
  | nil => intro b; exact Or.inl rfl
  | cons g rest ih =>
    intro b
    rw [minRankFrom_cons]
    rcases le_total (guess_rank n g S).1 (minRankFrom n S b rest) with h | h
    · exact Or.inr ⟨g, List.mem_cons_self _ _, (min_eq_left h).symm⟩
    · rw [min_eq_right h]
      rcases ih b with h1 | ⟨g2, hg2, hr2⟩
      · exact Or.inl h1
      · exact Or.inr ⟨g2, List.mem_cons_of_mem _ hg2, hr2⟩

/-- Full characterization of the ranking loop: minimal rank, and the guesses
achieving it in encounter order with their parallel foils. -/
theorem rankLoop_spec (n : Nat) (S : Finset Word) (gs : List Word) (hgs : gs ≠ []) :
    ∃ m : ℚ,
      (rankLoop n S gs).1 = some m ∧
      (∀ g ∈ gs, m ≤ (guess_rank n g S).1) ∧
      (∃ g ∈ gs, (guess_rank n g S).1 = m) ∧
      (rankLoop n S gs).2.1 = gs.filter (fun x => decide ((guess_rank n x S).1 = m)) ∧
      (rankLoop n S gs).2.2 =
        (gs.filter (fun x => decide ((guess_rank n x S).1 = m))).map
          fun x => (guess_rank n x S).2 := by
  match gs, hgs with
  | g :: rest, _ =>
    refine ⟨minRankFrom n S (guess_rank n g S).1 rest, ?_⟩
    have hloop : rankLoop n S (g :: rest) =
        rest.foldl (rankStep n S) (some (guess_rank n g S).1, [g], [(guess_rank n g S).2]) := by
      rfl
    rw [hloop, rankLoop_general n S rest (guess_rank n g S).1 [g] [(guess_rank n g S).2]]
    have hm2 : minRankFrom n S (guess_rank n g S).1 rest ≤ (guess_rank n g S).1 :=
      minRankFrom_le_seed n S _ rest
    refine ⟨rfl, ?_, ?_, ?_, ?_⟩
    · intro g2 hg2
      rcases List.mem_cons.mp hg2 with h1 | h1
      · rw [h1]
        exact hm2
      · exact minRankFrom_le_mem n S _ rest g2 h1
    · rcases minRankFrom_attained n S rest (guess_rank n g S).1 with h1 | ⟨g2, hg2, hr2⟩
      · exact ⟨g, List.mem_cons_self _ _, h1.symm⟩
      · exact ⟨g2, List.mem_cons_of_mem _ hg2, hr2⟩
    · dsimp only
      rcases lt_or_eq_of_le hm2 with hcase | hcase
      · have hx : ¬ ((guess_rank n g S).1 = minRankFrom n S (guess_rank n g S).1 rest) :=
          fun hc => (ne_of_lt hcase) hc.symm
        rw [List.filter_cons_of_neg (by simpa using hx)]
        rw [if_pos hcase]
        simp
      · have hx : (guess_rank n g S).1 = minRankFrom n S (guess_rank n g S).1 rest :=
          hcase.symm
        rw [List.filter_cons_of_pos (by simpa using hx)]
        rw [if_neg (not_lt_of_ge (ge_of_eq hcase))]
        simp
    · dsimp only
      rcases lt_or_eq_of_le hm2 with hcase | hcase
      · have hx : ¬ ((guess_rank n g S).1 = minRankFrom n S (guess_rank n g S).1 rest) :=
          fun hc => (ne_of_lt hcase) hc.symm
        rw [List.filter_cons_of_neg (by simpa using hx)]
        rw [if_pos hcase]
        simp
      · have hx : (guess_rank n g S).1 = minRankFrom n S (guess_rank n g S).1 rest :=
          hcase.symm
        rw [List.filter_cons_of_pos (by simpa using hx)]
        rw [if_neg (not_lt_of_ge (ge_of_eq hcase))]
        simp

/-- The solution-priority override (wordle_solver.py lines 613-624): keep only
the best guesses that are candidate solutions, with their foils, unless none
is. -/
def solutionOverride (S : Finset Word) (guesses : List Word)
    (foils : List (Option (List Char))) : List Word × List (Option (List Char)) :=
  let restricted := (guesses.zip foils).filter fun p => decide (p.1 ∈ S)
  if restricted.isEmpty then (guesses, foils)
  else (restricted.map Prod.fst, restricted.map Prod.snd)

/-- The guesses the sequential loop actually ranks: the candidate solutions,
then — unless the early exit fires right after them (`best_rank < 2`) — the
non-solution guesses. -/
def evaluatedGuesses (n : Nat) (S : Finset Word) (sols nonsols : List Word) : List Word :=
  if (!sols.isEmpty) && (match (rankLoop n S sols).1 with
      | some br => decide (br < 2)
      | none => false) then sols
  else sols ++ nonsols

/-- The sequential `best_guesses` search: rank the evaluated guesses (the
fold over `sols ++ nonsols` equals resuming the loop after the solutions)
and apply the solution-priority override. -/
def best_guesses_seq (n : Nat) (S : Finset Word) (sols nonsols : List Word) :
    Option ℚ × List Word × List (Option (List Char)) :=
  let acc := rankLoop n S (evaluatedGuesses n S sols nonsols)
  let go := solutionOverride S acc.2.1 acc.2.2
  (acc.1, go.1, go.2)

theorem zip_self_map {α β : Type} (A : List α) (f : α → β) :
    A.zip (A.map f) = A.map fun a => (a, f a) := by
  induction A with
  | nil => rfl
  | cons a rest ih => rw [List.map_cons, List.zip_cons_cons, ih, List.map_cons]

theorem mem_evaluatedGuesses (n : Nat) (S : Finset Word) (sols nonsols : List Word) :
    ∀ g2 ∈ evaluatedGuesses n S sols nonsols, g2 ∈ sols ∨ g2 ∈ nonsols := by
  intro g2 hg2
  unfold evaluatedGuesses at hg2
  split at hg2
  · exact Or.inl hg2
  · exact List.mem_append.mp hg2

theorem sols_subset_evaluatedGuesses (n : Nat) (S : Finset Word) (sols nonsols : List Word) :
    ∀ g2 ∈ sols, g2 ∈ evaluatedGuesses n S sols nonsols := by
  intro g2 hg2
  unfold evaluatedGuesses
  split
  · exact hg2
  · exact List.mem_append_left _ hg2


/-- Lower bound on any rank: worst case at least one solution remains, at most
`|S|` partitions exist. -/
theorem guess_rank_ge (n : Nat) (S : Finset Word) (g2 : Word) (hS : S.Nonempty)
    (hws : ∀ w ∈ S, w.length = n) (hg2 : g2.length = n) :
    1 + 1 / ((S.card : ℚ) + 1) ≤ (guess_rank n g2 S).1 := by
  rw [guess_rank_fst n g2 S hws hg2]
  have h1 : 1 ≤ maxPartSize g2 S := maxPartSize_pos g2 S hS
  have h2 : (partitionKeys g2 S).card ≤ S.card := Finset.card_image_le
  have h3 : (1 : ℚ) / ((S.card : ℚ) + 1) ≤ 1 / ((partitionKeys g2 S).card + 1) := by
    apply one_div_le_one_div_of_le
    · positivity
    · have : ((partitionKeys g2 S).card : ℚ) ≤ (S.card : ℚ) := by exact_mod_cast h2
      linarith
  have h4 : (1 : ℚ) ≤ (maxPartSize g2 S : ℚ) := by exact_mod_cast h1
  linarith

/-- On a two-word solution group, guessing a member scores exactly `1 + 1/3`. -/
theorem guess_rank_pair (n : Nat) (a b : Word) (hab : a ≠ b)
    (ha : a.length = n) (hb : b.length = n) :
    (guess_rank n a {a, b}).1 = 1 + 1/3 := by
  have hws : ∀ w ∈ ({a, b} : Finset Word), w.length = n := by
    intro w hw
    rcases Finset.mem_insert.mp hw with h | h
    · rw [h]
      exact ha
    · rw [Finset.mem_singleton.mp h]
      exact hb
  rw [guess_rank_fst n a {a, b} hws ha]
  have hne : wordle_result a a ≠ wordle_result a b := by
    intro hc
    have h1 : wordle_result a a = List.replicate n 'g' :=
      (wordle_result_all_green_iff a a n ha ha).mpr rfl
    have h2 : ¬ (wordle_result a b = List.replicate n 'g') := by
      intro hc2
      exact hab ((wordle_result_all_green_iff a b n ha hb).mp hc2)
    exact h2 (hc ▸ h1)
  have hkeys : partitionKeys a {a, b} = {wordle_result a a, wordle_result a b} := by
    unfold partitionKeys
    rw [Finset.image_insert, Finset.image_singleton]
  have hcard : (partitionKeys a {a, b}).card = 2 := by
    rw [hkeys]
    exact Finset.card_pair hne
  have hpa : partitionOf a {a, b} (wordle_result a a) = {a} := by
    apply Finset.ext
    intro w
    rw [partitionOf, Finset.mem_filter, Finset.mem_singleton]
    constructor
    · rintro ⟨hw, he⟩
      rcases Finset.mem_insert.mp hw with h | h
      · exact h
      · exfalso
        rw [Finset.mem_singleton.mp h] at he
        exact hne he.symm
    · intro h
      subst h
      exact ⟨Finset.mem_insert_self _ _, rfl⟩
  have hpb : partitionOf a {a, b} (wordle_result a b) = {b} := by
    apply Finset.ext
    intro w
    rw [partitionOf, Finset.mem_filter, Finset.mem_singleton]
    constructor
    · rintro ⟨hw, he⟩
      rcases Finset.mem_insert.mp hw with h | h
      · exfalso
        rw [h] at he
        exact hne he
      · exact Finset.mem_singleton.mp h
    · intro h
      subst h
      refine ⟨?_, rfl⟩
      exact Finset.mem_insert_of_mem (Finset.mem_singleton_self _)
  have hmax : maxPartSize a {a, b} = 1 := by
    unfold maxPartSize
    rw [hkeys, Finset.sup_insert, Finset.sup_singleton, hpa, hpb]
    simp
  rw [hmax, hcard]
  norm_num

/-- Every member of a two-word solution group achieves the minimal possible
rank `1 + 1/3` when guessed. -/
theorem guess_rank_mem_two (n : Nat) (S : Finset Word) (a : Word) (hcard : S.card = 2)
    (ha : a ∈ S) (hws : ∀ w ∈ S, w.length = n) :
    (guess_rank n a S).1 = 1 + 1/3 := by
  obtain ⟨x, y, hxy, hSxy⟩ := Finset.card_eq_two.mp hcard
  subst hSxy
  rcases Finset.mem_insert.mp ha with h | h
  · subst h
    exact guess_rank_pair n a y hxy (hws a ha)
      (hws y (Finset.mem_insert_of_mem (Finset.mem_singleton_self _)))
  · rw [Finset.mem_singleton] at h
    subst h
    rw [Finset.pair_comm x a]
    exact guess_rank_pair n a x (fun hc => hxy hc.symm) (hws a ha)
      (hws x (Finset.mem_insert_self _ _))


theorem solutionOverride_spec (S : Finset Word) (A : List Word)
    (foilF : Word → Option (List Char)) (gst : Word) (hgst : gst ∈ A) (hgstS : gst ∈ S) :
    solutionOverride S A (A.map foilF) =
      ((A.filter fun a => decide (a ∈ S)),
       (A.filter fun a => decide (a ∈ S)).map foilF) := by
  unfold solutionOverride
  rw [zip_self_map]
  have hfl : ((A.map fun a => (a, foilF a)).filter fun p => decide (p.1 ∈ S))
      = (A.filter fun a => decide (a ∈ S)).map fun a => (a, foilF a) := by
    rw [List.filter_map]
    congr 1
  rw [hfl]
  have hmemf : gst ∈ A.filter fun a => decide (a ∈ S) :=
    List.mem_filter.mpr ⟨hgst, by simpa using hgstS⟩
  have hne : ¬ ((((A.filter fun a => decide (a ∈ S)).map
      fun a => (a, foilF a))).isEmpty = true) := by
    rw [List.isEmpty_iff]
    intro hc
    have hpair : (gst, foilF gst) ∈ (A.filter fun a => decide (a ∈ S)).map
        fun a => (a, foilF a) := List.mem_map.mpr ⟨gst, hmemf, rfl⟩
    rw [hc] at hpair
    simp at hpair
  rw [if_neg hne]
  rw [List.map_map, List.map_map]
  have h1 : (Prod.fst ∘ fun a : Word => (a, foilF a)) = id := rfl
  have h2 : (Prod.snd ∘ fun a : Word => (a, foilF a)) = foilF := rfl
  rw [h1, h2, List.map_id]

/-- C6: the solution-priority override. The sequential driver returns the
minimal rank over the guesses it evaluates; whenever at least one evaluated
guess achieving that minimal rank is itself a member of the solution group,
the returned guess list is exactly the minimal-rank guesses that are members
of the solution group, in encounter order with their matching foils, and no
guess outside the solution group is returned; in particular for a solution
group of size 2 every returned guess is one of its two words. -/
theorem claim_C6_solution_priority_override (n : Nat) (S : Finset Word)
    (sols nonsols : List Word) (hS : S.Nonempty)
    (hsols : ∀ w : Word, w ∈ sols ↔ w ∈ S)
    (hnon : ∀ g2 ∈ nonsols, g2 ∉ S)
    (hws : ∀ w ∈ S, w.length = n) (hgl : ∀ g2 ∈ nonsols, g2.length = n) :
    ∃ m : ℚ,
      (best_guesses_seq n S sols nonsols).1 = some m ∧
      (∀ g2 ∈ evaluatedGuesses n S sols nonsols, m ≤ (guess_rank n g2 S).1) ∧
      ((∃ g2 ∈ evaluatedGuesses n S sols nonsols, (guess_rank n g2 S).1 = m ∧ g2 ∈ S) →
        (best_guesses_seq n S sols nonsols).2.1 =
          (evaluatedGuesses n S sols nonsols).filter
            (fun g2 => decide ((guess_rank n g2 S).1 = m) && decide (g2 ∈ S)) ∧
        (∀ g2 ∈ (best_guesses_seq n S sols nonsols).2.1, g2 ∈ S) ∧
        (best_guesses_seq n S sols nonsols).2.2 =
          ((best_guesses_seq n S sols nonsols).2.1).map fun g2 => (guess_rank n g2 S).2) ∧
      (S.card = 2 → ∀ g2 ∈ (best_guesses_seq n S sols nonsols).2.1, g2 ∈ S) := by
  obtain ⟨w0, hw0⟩ := hS
  have hw0sols : w0 ∈ sols := (hsols w0).mpr hw0
  have hsolsne : sols ≠ [] := List.ne_nil_of_mem hw0sols
  have hevalne : evaluatedGuesses n S sols nonsols ≠ [] := by
    unfold evaluatedGuesses
    split
    · exact hsolsne
    · intro hc
      rw [List.append_eq_nil] at hc
      exact hsolsne hc.1
  obtain ⟨m, hm1, hm2, hm3, hA, hF⟩ :=
    rankLoop_spec n S (evaluatedGuesses n S sols nonsols) hevalne
  have hbg1 : (best_guesses_seq n S sols nonsols).1 =
      (rankLoop n S (evaluatedGuesses n S sols nonsols)).1 := rfl
  have hlen : ∀ g2 ∈ evaluatedGuesses n S sols nonsols, g2.length = n := by
    intro g2 hg2
    rcases mem_evaluatedGuesses n S sols nonsols g2 hg2 with h1 | h1
    · exact hws g2 ((hsols g2).mp h1)
    · exact hgl g2 h1
  have hover : (∃ g2 ∈ evaluatedGuesses n S sols nonsols,
      (guess_rank n g2 S).1 = m ∧ g2 ∈ S) →
      (best_guesses_seq n S sols nonsols).2.1 =
        (evaluatedGuesses n S sols nonsols).filter
          (fun g2 => decide ((guess_rank n g2 S).1 = m) && decide (g2 ∈ S)) ∧
      (∀ g2 ∈ (best_guesses_seq n S sols nonsols).2.1, g2 ∈ S) ∧
      (best_guesses_seq n S sols nonsols).2.2 =
        ((best_guesses_seq n S sols nonsols).2.1).map fun g2 => (guess_rank n g2 S).2 := by
    rintro ⟨gst, hgstE, hgstm, hgstS⟩
    have hgstA : gst ∈ (evaluatedGuesses n S sols nonsols).filter
        (fun x => decide ((guess_rank n x S).1 = m)) :=
      List.mem_filter.mpr ⟨hgstE, by simpa using hgstm⟩
    have hbg2 : (best_guesses_seq n S sols nonsols).2 =
        solutionOverride S (rankLoop n S (evaluatedGuesses n S sols nonsols)).2.1
          (rankLoop n S (evaluatedGuesses n S sols nonsols)).2.2 := rfl
    rw [hbg2, hA, hF, solutionOverride_spec S _ _ gst hgstA hgstS]
    refine ⟨?_, ?_, ?_⟩
    · dsimp only
      rw [List.filter_filter]
      apply List.filter_congr
      intro a _
      exact Bool.and_comm _ _
    · intro g2 hg2
      dsimp only at hg2
      rw [List.mem_filter] at hg2
      simpa using hg2.2
    · dsimp only
  refine ⟨m, hbg1 ▸ hm1, hm2, hover, ?_⟩
  intro hcard2 g2 hg2mem
  have hra : (guess_rank n w0 S).1 = 1 + 1/3 := guess_rank_mem_two n S w0 hcard2 hw0 hws
  have hwE : w0 ∈ evaluatedGuesses n S sols nonsols :=
    sols_subset_evaluatedGuesses n S sols nonsols w0 hw0sols
  obtain ⟨g0, hg0E, hg0m⟩ := hm3
  have hg0low : 1 + 1 / ((S.card : ℚ) + 1) ≤ (guess_rank n g0 S).1 :=
    guess_rank_ge n S g0 ⟨w0, hw0⟩ hws (hlen g0 hg0E)
  have hm43 : m = 1 + 1/3 := by
    have h1 : m ≤ 1 + 1/3 := hra ▸ hm2 w0 hwE
    have h2 : (1 : ℚ) + 1/3 ≤ m := by
      rw [← hg0m]
      have hcast : ((S.card : ℚ) + 1) = 3 := by
        rw [hcard2]
        norm_num
      rw [hcast] at hg0low
      exact hg0low
    linarith
  obtain ⟨_, hallS, _⟩ := hover ⟨w0, hwE, by rw [hra, hm43], hw0⟩
  exact hallS g2 hg2mem

theorem claim_C6_witness :
    ((best_guesses_seq 2 ({['a','b'], ['b','a']} : Finset Word)
        [['a','b'], ['b','a']] [['a','a']]).2.1).all
      (fun g2 => decide (g2 ∈ ({['a','b'], ['b','a']} : Finset Word))) = true := by
  obtain ⟨m, h1, h2, h3, h4⟩ := claim_C6_solution_priority_override 2
    ({['a','b'], ['b','a']} : Finset Word) [['a','b'], ['b','a']] [['a','a']]
    ⟨['a','b'], by decide⟩
    (by intro w; simp)
    (by intro g2 hg2; simp only [List.mem_singleton] at hg2; subst hg2; decide)
    (by decide) (by decide)
  rw [List.all_eq_true]
  intro g2 hg2
  simpa using h4 (by decide) g2 hg2


/-! ## `GuessGroup.filter_guesses` (wordle_solver.py lines 209-259)

`_prepare_stats` runs once before the loop, so `_word_breakdown` and
`_word_contains` describe the original word list throughout: removal of a
suspect word depends only on the static statistics, never on the mutation
order.  A word whose letters are all excluded is dropped outright; any other
word containing an excluded letter is dropped when some word of the original
group matches it on every non-excluded position with strictly fewer excluded
letters (the `superior_words` intersection minus the suspect buckets of
equal-or-greater count). -/

/-- Number of positions of `w` holding an excluded letter (the suspect count
computed at lines 222-225). -/
def exclCount (excl : Finset Char) (w : Word) : Nat :=
  (w.filter fun c => decide (c ∈ excl)).length

/-- `v` lies in `_word_breakdown[i][w[i]]` for every non-excluded position `i`
of `w`: it matches `w` wherever `w` carries a non-excluded letter. -/
def agreesOn (excl : Finset Char) (w v : Word) : Prop :=
  ∀ i ∈ List.range w.length, w.getD i ' ' ∉ excl → v.getD i ' ' = w.getD i ' '

instance agreesOn.decidable (excl : Finset Char) (w v : Word) :
    Decidable (agreesOn excl w v) := by
  unfold agreesOn
  infer_instance

/-- The removal condition of `GuessGroup.filter_guesses`: fully excluded words
go first (line 232); a word with `1 ≤ count < word_length` excluded letters is
removed when its `superior_words` set — original-group words agreeing on its
non-excluded positions, minus all suspects of equal-or-greater count — is
non-empty (lines 234-256). -/
def removedByGuessFilter (n : Nat) (excl : Finset Char) (G : Finset Word) (w : Word) : Prop :=
  exclCount excl w = n ∨
    (1 ≤ exclCount excl w ∧ exclCount excl w < n ∧
      ∃ v ∈ G, agreesOn excl w v ∧ exclCount excl v < exclCount excl w)

instance removedByGuessFilter.decidable (n : Nat) (excl : Finset Char) (G : Finset Word)
    (w : Word) : Decidable (removedByGuessFilter n excl G w) := by
  unfold removedByGuessFilter
  infer_instance

/-- The filtered guess group: the words the loop never removes. -/
def filter_guesses_excl (n : Nat) (excl : Finset Char) (G : Finset Word) : Finset Word :=
  G.filter fun w => ¬ removedByGuessFilter n excl G w

/-- `excluded_letters` (wordle_solver.py lines 200-206): alphabet letters
contained in no word of the group. -/
def excludedLetters (alphabet : Finset Char) (S : Finset Word) : Finset Char :=
  alphabet.filter fun l => ∀ s ∈ S, l ∉ s

/-! ### Pointwise filter-length comparison helpers -/

theorem filter_length_le_pointwise {α β : Type} (d : α) (e : β) (p : α → Bool) (q : β → Bool) :
    ∀ (L : List α) (M : List β), L.length = M.length →
      (∀ i, i < L.length → p (L.getD i d) = true → q (M.getD i e) = true) →
      (L.filter p).length ≤ (M.filter q).length := by
  intro L
  induction L with
  | nil =>
    intro M _ _
    simp
  | cons a L ih =>
    intro M hlen hpt
    cases M with
    | nil => simp at hlen
    | cons b M =>
      have hlen2 : L.length = M.length := by simpa using hlen
      have hrest : ∀ i, i < L.length → p (L.getD i d) = true → q (M.getD i e) = true := by
        intro i hi hp
        have h := hpt (i + 1) (by simpa using Nat.succ_lt_succ hi)
        rw [List.getD_cons_succ, List.getD_cons_succ] at h
        exact h hp
      have hI := ih M hlen2 hrest
      rw [List.filter_cons, List.filter_cons]
      by_cases hpa : p a = true
      · have hqb : q b = true := by
          have h := hpt 0 (by simp)
          rw [List.getD_cons_zero, List.getD_cons_zero] at h
          exact h hpa
        rw [if_pos hpa, if_pos hqb]
        simpa using Nat.succ_le_succ hI
      · rw [if_neg hpa]
        by_cases hqb : q b = true
        · rw [if_pos hqb]
          calc (L.filter p).length ≤ (M.filter q).length := hI
            _ ≤ (M.filter q).length + 1 := Nat.le_succ _
            _ = (b :: M.filter q).length := by simp
        · rw [if_neg hqb]
          exact hI

theorem filter_length_eq_pointwise {α β : Type} (d : α) (e : β) (p : α → Bool) (q : β → Bool)
    (L : List α) (M : List β) (hlen : L.length = M.length)
    (hpt : ∀ i, i < L.length → (p (L.getD i d) = true ↔ q (M.getD i e) = true)) :
    (L.filter p).length = (M.filter q).length :=
  le_antisymm
    (filter_length_le_pointwise d e p q L M hlen fun i hi hp => (hpt i hi).mp hp)
    (filter_length_le_pointwise e d q p M L hlen.symm fun i hi hq =>
      (hpt i (by omega)).mpr hq)

theorem getD_take {α : Type} (L : List α) (k i : Nat) (d : α) (hi : i < k) :
    (L.take k).getD i d = L.getD i d := by
  by_cases hiL : i < L.length
  · have h1 : i < (L.take k).length := by
      rw [List.length_take]
      omega
    rw [List.getD_eq_getElem?_getD, List.getD_eq_getElem?_getD,
      List.getElem?_eq_getElem h1, List.getElem?_eq_getElem hiL]
    rw [List.getElem_take]
  · rw [List.getD_eq_default, List.getD_eq_default]
    · omega
    · rw [List.length_take]
      omega

theorem filter_take_lt {α : Type} (p : α → Bool) (L : List α) (k : Nat) (d : α)
    (hk : k < L.length) (hp : p (L.getD k d) = true) :
    ((L.take k).filter p).length < (L.filter p).length := by
  have hD : L.getD k d = L[k] := by
    rw [List.getD_eq_getElem?_getD, List.getElem?_eq_getElem hk]
    rfl
  rw [hD] at hp
  conv_rhs => rw [← List.take_append_drop k L]
  rw [List.filter_append, List.length_append]
  have hdrop : L.drop k = L[k] :: L.drop (k + 1) := List.drop_eq_getElem_cons hk
  rw [hdrop, List.filter_cons, if_pos hp]
  simp only [List.length_cons]
  omega

/-! ### Feedback marks at matching, excluded, and agreeing positions -/

theorem markAt_green_iff (g x : Word) (counts : Char → Nat) (k : Nat)
    (hlen : g.length = x.length) (hk : k < g.length) :
    markAt (g.zip x) counts k = 'g' ↔ g.getD k ' ' = x.getD k ' ' := by
  unfold markAt
  rw [zip_getD g x hlen k hk]
  dsimp only
  by_cases hm : g.getD k ' ' = x.getD k ' '
  · rw [if_pos hm]
    exact ⟨fun _ => hm, fun _ => rfl⟩
  · rw [if_neg hm]
    by_cases hy : slotsBefore (g.zip x) k (g.getD k ' ') < counts (g.getD k ' ')
    · rw [if_pos hy]
      constructor
      · intro h
        exact absurd h (by decide)
      · intro h
        exact absurd h hm
    · rw [if_neg hy]
      constructor
      · intro h
        exact absurd h (by decide)
      · intro h
        exact absurd h hm

/-- At a position whose guess letter occurs nowhere in the solution, the scan
marks Absent. -/
theorem markAt_absent (g x : Word) (k : Nat) (hlen : g.length = x.length)
    (hk : k < g.length) (habs : g.getD k ' ' ∉ x) :
    markAt (g.zip x) (specCounts g x) k = 'b' := by
  unfold markAt
  rw [zip_getD g x hlen k hk]
  dsimp only
  have hkx : k < x.length := by omega
  have hxk : x.getD k ' ' ∈ x := by
    rw [getD_eq_getElem_of_lt x k hkx]
    exact List.getElem_mem hkx
  have hm : ¬ g.getD k ' ' = x.getD k ' ' := by
    intro h
    rw [h] at habs
    exact habs hxk
  rw [if_neg hm]
  have hcount : x.count (g.getD k ' ') = 0 := List.count_eq_zero.mpr habs
  have hsplit := count_snd_split g x hlen (g.getD k ' ')
  have hspec : specCounts g x (g.getD k ' ') = 0 := by omega
  rw [hspec]
  simp

theorem slotsBefore_lt_slotCount (L : List (Char × Char)) (k : Nat) (l : Char)
    (hk : k < L.length) (h1 : (L.getD k ('?', '?')).1 = l)
    (h2 : (L.getD k ('?', '?')).1 ≠ (L.getD k ('?', '?')).2) :
    slotsBefore L k l < slotCount L l := by
  unfold slotsBefore slotCount
  apply filter_take_lt _ L k ('?', '?') hk
  simp only [decide_eq_true_eq]
  exact ⟨h1, h2⟩

/-- Core refinement fact behind dominated-guess elimination: if `v` matches
`w` on every non-excluded position of `w` and the excluded letters occur in
neither solution, then two solutions the feedback of `v` does not distinguish
receive the same feedback from `w` as well. -/
theorem wordle_result_determined (n : Nat) (excl : Finset Char) (w v s t : Word)
    (hw : w.length = n) (hv : v.length = n) (hs : s.length = n) (ht : t.length = n)
    (hexs : ∀ l ∈ excl, l ∉ s) (hext : ∀ l ∈ excl, l ∉ t)
    (hagree : agreesOn excl w v)
    (hvst : wordle_result v s = wordle_result v t) :
    wordle_result w s = wordle_result w t := by
  have hws : w.length = s.length := by omega
  have hwt : w.length = t.length := by omega
  have hvs : v.length = s.length := by omega
  have hvt : v.length = t.length := by omega
  have hmark : ∀ k, k < n →
      markAt (v.zip s) (specCounts v s) k = markAt (v.zip t) (specCounts v t) k := by
    intro k hk
    have h1 := wordle_result_getD v s hvs k (by omega)
    have h2 := wordle_result_getD v t hvt k (by omega)
    rw [← h1, ← h2, hvst]
  have hgreen : ∀ k, k < n →
      (v.getD k ' ' = s.getD k ' ' ↔ v.getD k ' ' = t.getD k ' ') := by
    intro k hk
    rw [← markAt_green_iff v s (specCounts v s) k hvs (by omega),
      ← markAt_green_iff v t (specCounts v t) k hvt (by omega), hmark k hk]
  have hag : ∀ i, i < n → w.getD i ' ' ∉ excl → v.getD i ' ' = w.getD i ' ' := by
    intro i hi hne
    exact hagree i (by rw [List.mem_range]; omega) hne
  have hout : ∀ l m, outCount (v.zip s) (specCounts v s) l m
      = outCount (v.zip t) (specCounts v t) l m := by
    intro l m
    unfold outCount
    have hmapf : (v.zip s).map Prod.fst = (v.zip t).map Prod.fst := by
      rw [List.map_fst_zip v s (le_of_eq hvs), List.map_fst_zip v t (le_of_eq hvt)]
    have hscan : specScan (v.zip s) (specCounts v s)
        = specScan (v.zip t) (specCounts v t) := by
      have e1 : specScan (v.zip s) (specCounts v s) = feedbackSpec v s := rfl
      have e2 : specScan (v.zip t) (specCounts v t) = feedbackSpec v t := rfl
      rw [e1, e2, ← wordle_result_eq_feedbackSpec v s hvs,
        ← wordle_result_eq_feedbackSpec v t hvt, hvst]
    rw [hmapf, hscan]
  apply List.ext_getElem
  · rw [wordle_result_length w s hws, wordle_result_length w t hwt]
  · intro k hk1 hk2
    have hkn : k < n := by
      rw [wordle_result_length w s hws] at hk1
      omega
    have hgd1 := wordle_result_getD w s hws k (by omega)
    have hgd2 := wordle_result_getD w t hwt k (by omega)
    rw [← getD_eq_getElem_of_lt _ k hk1, ← getD_eq_getElem_of_lt _ k hk2, hgd1, hgd2]
    by_cases hle : w.getD k ' ' ∈ excl
    · rw [markAt_absent w s k hws (by omega) (hexs _ hle),
        markAt_absent w t k hwt (by omega) (hext _ hle)]
    · have hvk : v.getD k ' ' = w.getD k ' ' := hag k hkn hle
      have hgw : (w.getD k ' ' = s.getD k ' ') ↔ (w.getD k ' ' = t.getD k ' ') := by
        rw [← hvk]
        exact hgreen k hkn
      by_cases hgr : w.getD k ' ' = s.getD k ' '
      · unfold markAt
        rw [zip_getD w s hws k (by omega), zip_getD w t hwt k (by omega)]
        dsimp only
        rw [if_pos hgr, if_pos (hgw.mp hgr)]
      · have hgrt : ¬ w.getD k ' ' = t.getD k ' ' := fun h => hgr (hgw.mpr h)
        unfold markAt
        rw [zip_getD w s hws k (by omega), zip_getD w t hwt k (by omega)]
        dsimp only
        rw [if_neg hgr, if_neg hgrt]
        refine if_congr ?_ rfl rfl
        -- pointwise transfer facts
        have hiffpos : ∀ i, i < n → w.getD i ' ' = w.getD k ' ' →
            ((w.getD i ' ' = s.getD i ' ') ↔ (w.getD i ' ' = t.getD i ' ')) := by
          intro i hin hil
          have hni : w.getD i ' ' ∉ excl := by
            rw [hil]
            exact hle
          rw [← hag i hin hni]
          exact hgreen i hin
        have hvof : ∀ i, i < n → w.getD i ' ' = w.getD k ' ' →
            v.getD i ' ' = w.getD i ' ' := by
          intro i hin hil
          refine hag i hin ?_
          rw [hil]
          exact hle
        -- (e10) the non-green slots of w before k coincide for s and t
        have e10 : slotsBefore (w.zip s) k (w.getD k ' ')
            = slotsBefore (w.zip t) k (w.getD k ' ') := by
          unfold slotsBefore
          apply filter_length_eq_pointwise ('?', '?') ('?', '?')
          · rw [List.length_take, List.length_take, List.length_zip, List.length_zip]
            omega
          · intro i hi
            have hik : i < k := by
              rw [List.length_take, List.length_zip] at hi
              omega
            have hin : i < n := by
              rw [List.length_take, List.length_zip] at hi
              omega
            rw [getD_take _ k i _ hik, getD_take _ k i _ hik,
              zip_getD w s hws i (by omega), zip_getD w t hwt i (by omega)]
            simp only [decide_eq_true_eq]
            constructor
            · rintro ⟨ha, hb⟩
              exact ⟨ha, fun hc => hb ((hiffpos i hin ha).mpr hc)⟩
            · rintro ⟨ha, hb⟩
              exact ⟨ha, fun hc => hb ((hiffpos i hin ha).mp hc)⟩
        -- (e11) w has no more non-green slots before k than v
        have e11 : slotsBefore (w.zip s) k (w.getD k ' ')
            ≤ slotsBefore (v.zip s) k (w.getD k ' ') := by
          unfold slotsBefore
          apply filter_length_le_pointwise ('?', '?') ('?', '?')
          · rw [List.length_take, List.length_take, List.length_zip, List.length_zip]
            omega
          · intro i hi
            have hik : i < k := by
              rw [List.length_take, List.length_zip] at hi
              omega
            have hin : i < n := by
              rw [List.length_take, List.length_zip] at hi
              omega
            rw [getD_take _ k i _ hik, getD_take _ k i _ hik,
              zip_getD w s hws i (by omega), zip_getD v s hvs i (by omega)]
            simp only [decide_eq_true_eq]
            rintro ⟨ha, hb⟩
            have hv2 := hvof i hin ha
            rw [hv2]
            exact ⟨ha, hb⟩
        -- (e12) position k itself is still a non-green slot of v
        have e12 : slotsBefore (v.zip s) k (w.getD k ' ')
            < slotCount (v.zip s) (w.getD k ' ') := by
          apply slotsBefore_lt_slotCount
          · rw [List.length_zip]
            omega
          · rw [zip_getD v s hvs k (by omega)]
            exact hvk
          · rw [zip_getD v s hvs k (by omega)]
            dsimp only
            rw [hvk]
            exact hgr
        -- (e6) w-matches of the letter coincide for s and t
        have e6 : matchCount (w.zip s) (w.getD k ' ')
            = matchCount (w.zip t) (w.getD k ' ') := by
          unfold matchCount
          apply filter_length_eq_pointwise ('?', '?') ('?', '?')
          · rw [List.length_zip, List.length_zip]
            omega
          · intro i hi
            have hin : i < n := by
              rw [List.length_zip] at hi
              omega
            rw [zip_getD w s hws i (by omega), zip_getD w t hwt i (by omega)]
            simp only [decide_eq_true_eq]
            constructor
            · rintro ⟨ha, hb⟩
              exact ⟨ha, (hiffpos i hin ha).mp hb⟩
            · rintro ⟨ha, hb⟩
              exact ⟨ha, (hiffpos i hin ha).mpr hb⟩
        -- (e7) every w-match of the letter is a v-match
        have e7 : matchCount (w.zip s) (w.getD k ' ')
            ≤ matchCount (v.zip s) (w.getD k ' ') := by
          unfold matchCount
          apply filter_length_le_pointwise ('?', '?') ('?', '?')
          · rw [List.length_zip, List.length_zip]
            omega
          · intro i hi
            have hin : i < n := by
              rw [List.length_zip] at hi
              omega
            rw [zip_getD w s hws i (by omega), zip_getD v s hvs i (by omega)]
            simp only [decide_eq_true_eq]
            rintro ⟨ha, hb⟩
            have hv2 := hvof i hin ha
            rw [hv2]
            exact ⟨ha, hb⟩
        -- per-letter count identities and the clamped Present counts
        have e1 := count_snd_split v s hvs (w.getD k ' ')
        have e2 := count_snd_split v t hvt (w.getD k ' ')
        have e3 := count_snd_split w s hws (w.getD k ' ')
        have e4 := count_snd_split w t hwt (w.getD k ' ')
        have e5 : matchCount (v.zip s) (w.getD k ' ')
            = matchCount (v.zip t) (w.getD k ' ') := by
          rw [← outCount_g (v.zip s) (specCounts v s), ← outCount_g (v.zip t) (specCounts v t)]
          exact hout _ 'g'
        have e9 : slotCount (v.zip s) (w.getD k ' ')
            = slotCount (v.zip t) (w.getD k ' ') := by
          have hy := hout (w.getD k ' ') 'y'
          have hb := hout (w.getD k ' ') 'b'
          have h1 := outCount_y_add_b (v.zip s) (specCounts v s) (w.getD k ' ')
          have h2 := outCount_y_add_b (v.zip t) (specCounts v t) (w.getD k ' ')
          omega
        have e8 : min (slotCount (v.zip s) (w.getD k ' ')) (specCounts v s (w.getD k ' '))
            = min (slotCount (v.zip t) (w.getD k ' ')) (specCounts v t (w.getD k ' ')) := by
          rw [← outCount_y (v.zip s) (specCounts v s), ← outCount_y (v.zip t) (specCounts v t)]
          exact hout _ 'y'
        omega

/-! ### Coarser partitions never score better -/

theorem mem_filter_guesses_excl (n : Nat) (excl : Finset Char) (G : Finset Word) (w : Word) :
    w ∈ filter_guesses_excl n excl G ↔ w ∈ G ∧ ¬ removedByGuessFilter n excl G w := by
  unfold filter_guesses_excl
  exact Finset.mem_filter

theorem maxPartSize_le_of_determined (w v : Word) (S : Finset Word)
    (hdet : ∀ s ∈ S, ∀ t ∈ S, wordle_result v s = wordle_result v t →
      wordle_result w s = wordle_result w t) :
    maxPartSize v S ≤ maxPartSize w S := by
  unfold maxPartSize
  apply Finset.sup_le
  intro r hr
  rw [partitionKeys, Finset.mem_image] at hr
  obtain ⟨s0, hs0, hr0⟩ := hr
  have hsub : partitionOf v S r ⊆ partitionOf w S (wordle_result w s0) := by
    intro u hu
    rw [partitionOf, Finset.mem_filter] at hu
    rw [partitionOf, Finset.mem_filter]
    refine ⟨hu.1, ?_⟩
    exact hdet u hu.1 s0 hs0 (by rw [hu.2, hr0])
  calc (partitionOf v S r).card ≤ (partitionOf w S (wordle_result w s0)).card :=
      Finset.card_le_card hsub
    _ ≤ (partitionKeys w S).sup fun r2 => (partitionOf w S r2).card :=
      @Finset.le_sup ℕ (List Char) _ _ (partitionKeys w S)
        (fun r2 => (partitionOf w S r2).card) (wordle_result w s0)
        (Finset.mem_image_of_mem _ hs0)

theorem partitionKeys_card_le_of_determined (w v : Word) (S : Finset Word)
    (hdet : ∀ s ∈ S, ∀ t ∈ S, wordle_result v s = wordle_result v t →
      wordle_result w s = wordle_result w t) :
    (partitionKeys w S).card ≤ (partitionKeys v S).card := by
  classical
  apply Finset.card_le_card_of_surjOn
    (fun r => if h : ∃ s, s ∈ S ∧ wordle_result v s = r then wordle_result w h.choose else r)
  intro y hy
  rw [Finset.mem_coe, partitionKeys, Finset.mem_image] at hy
  obtain ⟨s0, hs0, hy0⟩ := hy
  refine ⟨wordle_result v s0, ?_, ?_⟩
  · rw [Finset.mem_coe, partitionKeys]
    exact Finset.mem_image_of_mem _ hs0
  · have hex : ∃ s, s ∈ S ∧ wordle_result v s = wordle_result v s0 := ⟨s0, hs0, rfl⟩
    dsimp only
    rw [dif_pos hex]
    have hspec := hex.choose_spec
    rw [← hy0]
    exact hdet hex.choose hspec.1 s0 hs0 hspec.2

theorem guess_rank_le_of_determined (n : Nat) (w v : Word) (S : Finset Word)
    (hws : ∀ x ∈ S, x.length = n) (hwlen : w.length = n) (hvlen : v.length = n)
    (hdet : ∀ s ∈ S, ∀ t ∈ S, wordle_result v s = wordle_result v t →
      wordle_result w s = wordle_result w t) :
    (guess_rank n v S).1 ≤ (guess_rank n w S).1 := by
  rw [guess_rank_fst n v S hws hvlen, guess_rank_fst n w S hws hwlen]
  have h1 := maxPartSize_le_of_determined w v S hdet
  have h2 := partitionKeys_card_le_of_determined w v S hdet
  have h3 : ((maxPartSize v S : ℚ)) ≤ (maxPartSize w S : ℚ) := by exact_mod_cast h1
  have h4 : (1 : ℚ) / ((partitionKeys v S).card + 1) ≤ 1 / ((partitionKeys w S).card + 1) := by
    apply one_div_le_one_div_of_le
    · positivity
    · have h5 : ((partitionKeys w S).card : ℚ) ≤ (partitionKeys v S).card := by
        exact_mod_cast h2
      linarith
  linarith

/-- All letters excluded: the feedback is all-Absent against every solution. -/
theorem wordle_result_all_excluded (n : Nat) (excl : Finset Char) (w x : Word)
    (hwlen : w.length = n) (hxlen : x.length = n)
    (hxex : ∀ l ∈ excl, l ∉ x) (hall : exclCount excl w = n) :
    wordle_result w x = List.replicate n 'b' := by
  have hmem : ∀ k, k < n → w.getD k ' ' ∈ excl := by
    intro k hk
    have hsub : (w.filter fun c => decide (c ∈ excl)) = w := by
      apply List.Sublist.eq_of_length (List.filter_sublist w)
      unfold exclCount at hall
      omega
    have hallmem : ∀ a ∈ w, a ∈ excl := by
      intro a ha
      have := List.filter_eq_self.mp hsub a ha
      simpa using this
    refine hallmem _ ?_
    rw [getD_eq_getElem_of_lt w k (by omega)]
    exact List.getElem_mem (by omega)
  have hwx : w.length = x.length := by omega
  apply List.ext_getElem
  · rw [wordle_result_length w x hwx, List.length_replicate]
    omega
  · intro k hk1 hk2
    have hkn : k < n := by
      rw [wordle_result_length w x hwx] at hk1
      omega
    have hgd := wordle_result_getD w x hwx k (by omega)
    rw [← getD_eq_getElem_of_lt _ k hk1, hgd,
      markAt_absent w x k hwx (by omega) (hxex _ (hmem k hkn))]
    rw [List.getElem_replicate]

/-- Every guess scores at most the single-partition rank of a fully excluded
word. -/
theorem guess_rank_le_full_excluded (n : Nat) (excl : Finset Char) (S : Finset Word)
    (w u : Word) (hS : S.Nonempty) (hws : ∀ x ∈ S, x.length = n)
    (hwlen : w.length = n) (hulen : u.length = n)
    (hex : ∀ l ∈ excl, ∀ x ∈ S, l ∉ x) (hall : exclCount excl w = n) :
    (guess_rank n u S).1 ≤ (guess_rank n w S).1 := by
  rw [guess_rank_fst n u S hws hulen, guess_rank_fst n w S hws hwlen]
  have hconst : ∀ x ∈ S, wordle_result w x = List.replicate n 'b' := by
    intro x hx
    exact wordle_result_all_excluded n excl w x hwlen (hws x hx)
      (fun l hl => hex l hl x hx) hall
  have hkeys : partitionKeys w S = {List.replicate n 'b'} := by
    rw [partitionKeys]
    apply Finset.ext
    intro r
    rw [Finset.mem_image, Finset.mem_singleton]
    constructor
    · rintro ⟨x, hx, hr⟩
      rw [← hr, hconst x hx]
    · intro hr
      obtain ⟨x, hx⟩ := hS
      exact ⟨x, hx, by rw [hconst x hx, hr]⟩
  have hpart : partitionOf w S (List.replicate n 'b') = S := by
    rw [partitionOf]
    apply Finset.filter_true_of_mem
    intro x hx
    exact hconst x hx
  have hmaxw : maxPartSize w S = S.card := by
    rw [maxPartSize, hkeys, Finset.sup_singleton, hpart]
  have hcardw : (partitionKeys w S).card = 1 := by
    rw [hkeys, Finset.card_singleton]
  have hmaxu : maxPartSize u S ≤ S.card := by
    rw [maxPartSize]
    apply Finset.sup_le
    intro r _
    exact Finset.card_le_card (Finset.filter_subset _ _)
  have hku : 1 ≤ (partitionKeys u S).card := by
    rw [partitionKeys]
    exact Finset.card_pos.mpr (hS.image _)
  rw [hmaxw, hcardw]
  have h3 : ((maxPartSize u S : ℚ)) ≤ (S.card : ℚ) := by exact_mod_cast hmaxu
  have h4 : (1 : ℚ) / (((partitionKeys u S).card : ℚ) + 1) ≤ 1 / (((1 : ℕ) : ℚ) + 1) := by
    apply one_div_le_one_div_of_le
    · norm_num
    · have h5 : ((1 : ℕ) : ℚ) ≤ ((partitionKeys u S).card : ℚ) := by exact_mod_cast hku
      linarith
  linarith

/-- Under a non-empty filter result, every guess of the original group is
matched in rank by some retained guess. -/
theorem dominated_by_retained (n : Nat) (excl : Finset Char) (G S : Finset Word)
    (hws : ∀ x ∈ S, x.length = n) (hgw : ∀ u ∈ G, u.length = n) (hS : S.Nonempty)
    (hexcl : ∀ l ∈ excl, ∀ x ∈ S, l ∉ x)
    (hF : (filter_guesses_excl n excl G).Nonempty) :
    ∀ c w, w ∈ G → exclCount excl w ≤ c →
      ∃ u ∈ filter_guesses_excl n excl G, (guess_rank n u S).1 ≤ (guess_rank n w S).1 := by
  intro c
  induction c with
  | zero =>
    intro w hw hc
    by_cases hrem : removedByGuessFilter n excl G w
    · rcases hrem with h0 | ⟨h1, _, _⟩
      · obtain ⟨u, hu⟩ := hF
        refine ⟨u, hu, ?_⟩
        exact guess_rank_le_full_excluded n excl S w u hS hws (hgw w hw)
          (hgw u ((mem_filter_guesses_excl n excl G u).mp hu).1) hexcl h0
      · omega
    · exact ⟨w, (mem_filter_guesses_excl n excl G w).mpr ⟨hw, hrem⟩, le_refl _⟩
  | succ c ih =>
    intro w hw hc
    by_cases hrem : removedByGuessFilter n excl G w
    · rcases hrem with h0 | ⟨h1, h2, v, hvG, hagree, hlt⟩
      · obtain ⟨u, hu⟩ := hF
        refine ⟨u, hu, ?_⟩
        exact guess_rank_le_full_excluded n excl S w u hS hws (hgw w hw)
          (hgw u ((mem_filter_guesses_excl n excl G u).mp hu).1) hexcl h0
      · have hvle : (guess_rank n v S).1 ≤ (guess_rank n w S).1 := by
          apply guess_rank_le_of_determined n w v S hws (hgw w hw) (hgw v hvG)
          intro s hs t ht hvst
          exact wordle_result_determined n excl w v s t (hgw w hw) (hgw v hvG)
            (hws s hs) (hws t ht) (fun l hl => hexcl l hl s hs)
            (fun l hl => hexcl l hl t ht) hagree hvst
        obtain ⟨u, huF, hule⟩ := ih v hvG (by omega)
        exact ⟨u, huF, le_trans hule hvle⟩
    · exact ⟨w, (mem_filter_guesses_excl n excl G w).mpr ⟨hw, hrem⟩, le_refl _⟩

/-- C7 counterexample: with solution group {"aa"} over alphabet {a,b,z} the
filter removes its only guess "zz" and keeps nothing, so the removed guess has
no retained dominator; and with solutions {"aa","ab"} and guesses {"zz","aa"}
the achievable rank set shrinks from {5/2, 4/3} to {4/3} — it is not
unchanged, only its minimum is. -/
theorem claim_C7_counterexample :
    (removedByGuessFilter 2 (excludedLetters {'a', 'b', 'z'} {['a', 'a']})
        {['z', 'z']} ['z', 'z'] ∧
      filter_guesses_excl 2 (excludedLetters {'a', 'b', 'z'} {['a', 'a']}) {['z', 'z']} = ∅) ∧
    Finset.image (fun g => (guess_rank 2 g {['a', 'a'], ['a', 'b']}).1)
        (filter_guesses_excl 2 (excludedLetters {'a', 'b', 'z'} {['a', 'a'], ['a', 'b']})
          {['z', 'z'], ['a', 'a']}) ≠
      Finset.image (fun g => (guess_rank 2 g {['a', 'a'], ['a', 'b']}).1)
        {['z', 'z'], ['a', 'a']} := by
  refine ⟨⟨by decide, by decide⟩, ?_⟩
  have hflt : filter_guesses_excl 2 (excludedLetters {'a', 'b', 'z'} {['a', 'a'], ['a', 'b']})
      {['z', 'z'], ['a', 'a']} = {['a', 'a']} := by decide
  have hzz : (guess_rank 2 ['z', 'z'] {['a', 'a'], ['a', 'b']}).1 = 5/2 := by
    rw [guess_rank_fst 2 ['z', 'z'] {['a', 'a'], ['a', 'b']} (by decide) (by decide)]
    rw [show maxPartSize ['z', 'z'] {['a', 'a'], ['a', 'b']} = 2 from by decide,
      show (partitionKeys ['z', 'z'] {['a', 'a'], ['a', 'b']}).card = 1 from by decide]
    norm_num
  have haa : (guess_rank 2 ['a', 'a'] {['a', 'a'], ['a', 'b']}).1 = 4/3 := by
    rw [guess_rank_fst 2 ['a', 'a'] {['a', 'a'], ['a', 'b']} (by decide) (by decide)]
    rw [show maxPartSize ['a', 'a'] {['a', 'a'], ['a', 'b']} = 1 from by decide,
      show (partitionKeys ['a', 'a'] {['a', 'a'], ['a', 'b']}).card = 2 from by decide]
    norm_num
  rw [hflt, Finset.image_singleton, haa]
  intro hEq
  have h52 : (5/2 : ℚ) ∈ ({(4 : ℚ)/3} : Finset ℚ) := by
    rw [hEq, Finset.image_insert, Finset.image_singleton, hzz, haa]
    exact Finset.mem_insert_self _ _
  rw [Finset.mem_singleton] at h52
  norm_num at h52

/-- C7 (amended): dominated-guess elimination is rank-safe only when it keeps
at least one guess. Under that proviso every guess of the original group is
dominated by some retained guess — a retained guess achieves a rank at most
its rank — so the minimal achievable rank over the group is unchanged by the
filter; the full set of achievable ranks may still shrink. -/
theorem claim_C7_amended (n : Nat) (alphabet : Finset Char) (G S : Finset Word)
    (hws : ∀ s ∈ S, s.length = n) (hgw : ∀ w ∈ G, w.length = n) (hS : S.Nonempty)
    (hF : (filter_guesses_excl n (excludedLetters alphabet S) G).Nonempty) :
    (∀ w ∈ G, ∃ v ∈ filter_guesses_excl n (excludedLetters alphabet S) G,
        (guess_rank n v S).1 ≤ (guess_rank n w S).1) ∧
    (G.image fun g => (guess_rank n g S).1).min =
      ((filter_guesses_excl n (excludedLetters alphabet S) G).image
        fun g => (guess_rank n g S).1).min := by
  have hexcl : ∀ l ∈ excludedLetters alphabet S, ∀ x ∈ S, l ∉ x := by
    intro l hl
    rw [excludedLetters, Finset.mem_filter] at hl
    exact hl.2
  have hdom : ∀ w ∈ G, ∃ v ∈ filter_guesses_excl n (excludedLetters alphabet S) G,
      (guess_rank n v S).1 ≤ (guess_rank n w S).1 := by
    intro w hw
    exact dominated_by_retained n (excludedLetters alphabet S) G S hws hgw hS hexcl hF
      (exclCount (excludedLetters alphabet S) w) w hw (le_refl _)
  refine ⟨hdom, ?_⟩
  apply le_antisymm
  · apply Finset.le_min
    intro b hb
    rw [Finset.mem_image] at hb
    obtain ⟨v, hv, hbv⟩ := hb
    have hvG : v ∈ G := ((mem_filter_guesses_excl n _ G v).mp hv).1
    exact hbv ▸ Finset.min_le (Finset.mem_image_of_mem _ hvG)
  · apply Finset.le_min
    intro b hb
    rw [Finset.mem_image] at hb
    obtain ⟨w, hw, hbw⟩ := hb
    obtain ⟨v, hvF, hvle⟩ := hdom w hw
    calc ((filter_guesses_excl n (excludedLetters alphabet S) G).image
          fun g => (guess_rank n g S).1).min
        ≤ ((guess_rank n v S).1 : WithTop ℚ) :=
          Finset.min_le (Finset.mem_image_of_mem _ hvF)
      _ ≤ ((guess_rank n w S).1 : WithTop ℚ) := WithTop.coe_le_coe.mpr hvle
      _ = (b : WithTop ℚ) := by rw [hbw]

theorem claim_C7_witness :
    (∀ w ∈ ({['z', 'z'], ['a', 'a']} : Finset Word),
      ∃ v ∈ filter_guesses_excl 2 (excludedLetters {'a', 'b', 'z'} {['a', 'a'], ['a', 'b']})
          {['z', 'z'], ['a', 'a']},
        (guess_rank 2 v {['a', 'a'], ['a', 'b']}).1 ≤
          (guess_rank 2 w {['a', 'a'], ['a', 'b']}).1) ∧
    (({['z', 'z'], ['a', 'a']} : Finset Word).image
        fun g => (guess_rank 2 g {['a', 'a'], ['a', 'b']}).1).min =
      ((filter_guesses_excl 2 (excludedLetters {'a', 'b', 'z'} {['a', 'a'], ['a', 'b']})
          {['z', 'z'], ['a', 'a']}).image
        fun g => (guess_rank 2 g {['a', 'a'], ['a', 'b']}).1).min :=
  claim_C7_amended 2 {'a', 'b', 'z'} {['z', 'z'], ['a', 'a']} {['a', 'a'], ['a', 'b']}
    (by decide) (by decide) ⟨['a', 'a'], by decide⟩ ⟨['a', 'a'], by decide⟩

/-! ## `Context` guess cache (wordle_contexts.py lines 278-348)

The cache file holds a dict keyed by guess word; each entry carries `rank`,
`foil`, and a `next_turn` dict keyed by feedback result whose values are
again guess dicts.  Dicts preserve insertion order, so we embed them as
association lists.  `load_guesses` walks `_words_guessed` through
`next_turn` and returns `(None, [], [])` on any missing key;
`save_guesses` refuses depth > 1, and the internal writer returns silently
when the first guessed word is absent from the root dict. -/

inductive CacheEntry where
  | mk (rank : ℚ) (foil : Option (List Char))
      (next_turn : List (List Char × List (Word × CacheEntry))) : CacheEntry

def CacheEntry.rank : CacheEntry → ℚ
  | .mk r _ _ => r

def CacheEntry.foil : CacheEntry → Option (List Char)
  | .mk _ f _ => f

def CacheEntry.next : CacheEntry → List (List Char × List (Word × CacheEntry))
  | .mk _ _ nt => nt

def alistFind {α β : Type} [DecidableEq α] (k : α) : List (α × β) → Option β
  | [] => none
  | (k2, v) :: rest => if k2 = k then some v else alistFind k rest

/-- Dict assignment: overwrite in place, else append at the end. -/
def alistSet {α β : Type} [DecidableEq α] (k : α) (v : β) : List (α × β) → List (α × β)
  | [] => [(k, v)]
  | (k2, v2) :: rest => if k2 = k then (k2, v) :: rest else (k2, v2) :: alistSet k v rest

def alistHasKey {α β : Type} [DecidableEq α] (k : α) (l : List (α × β)) : Bool :=
  (alistFind k l).isSome

/-- Python string comparison between guess words (code-point lexicographic). -/
def wordLeb : Word → Word → Bool
  | [], _ => true
  | _ :: _, [] => false
  | a :: as, b :: bs => if a < b then true else if a = b then wordLeb as bs else false

/-- The order `sorted(zip(guesses, foils))` uses: alphabetical on the guess
word.  Tuples compare the foils only on equal guesses, which duplicates alone
can reach. -/
def pairLe (p q : Word × Option (List Char)) : Prop := wordLeb p.1 q.1 = true

instance pairLe.decidable : DecidableRel pairLe := fun p q => by
  unfold pairLe
  infer_instance

/-- `sorted(zip(guesses, foils))` on distinct guesses: a stable sort by word. -/
def sortedPairs (guesses : List Word) (foils : List (Option (List Char))) :
    List (Word × Option (List Char)) :=
  (guesses.zip foils).insertionSort pairLe

/-- The dict rebuilt by the final loop of `_save_guesses_internal`: cleared,
then guesses inserted alphabetically, all with the given rank. -/
def freshNode (rank : ℚ) (guesses : List Word) (foils : List (Option (List Char))) :
    List (Word × CacheEntry) :=
  (sortedPairs guesses foils).map fun p => (p.1, CacheEntry.mk rank p.2 [])

/-- The traversal `cache_data[word]["next_turn"][result]` of `load_guesses`,
`none` on the first missing key. -/
def cacheTraverse : List (Word × CacheEntry) → List (Word × List Char) →
    Option (List (Word × CacheEntry))
  | node, [] => some node
  | node, (w, r) :: rest =>
    match alistFind w node with
    | none => none
    | some e =>
      match alistFind r e.next with
      | none => none
      | some node2 => cacheTraverse node2 rest

/-- The collection loop of `load_guesses`: first rank wins, a differing rank
raises (`none` here), guesses and foils collected in dict order. -/
def collectLoop : List (Word × CacheEntry) → Option ℚ →
    Option (Option ℚ × List Word × List (Option (List Char)))
  | [], r => some (r, [], [])
  | (g, e) :: rest, r =>
    match r with
    | none =>
      match collectLoop rest (some e.rank) with
      | some (r2, gs, fs) => some (r2, g :: gs, e.foil :: fs)
      | none => none
    | some r0 =>
      if r0 = e.rank then
        match collectLoop rest (some r0) with
        | some (r2, gs, fs) => some (r2, g :: gs, e.foil :: fs)
        | none => none
      else none

def load_guesses (cache : List (Word × CacheEntry)) (wg : List (Word × List Char)) :
    Option (Option ℚ × List Word × List (Option (List Char))) :=
  match cacheTraverse cache wg with
  | none => some (none, [], [])
  | some node => collectLoop node none

/-- `save_guesses` with the internal writer inlined: depth > 1 is refused; an
empty turn list rewrites the root; one guessed turn requires the word to be
cached, inserts the (empty) result bucket into `next_turn` keeping it sorted
by `_result_key` (a fresh key is appended then the dict is stably sorted),
and rebuilds that bucket. -/
def save_guesses_model (cache : List (Word × CacheEntry)) (wg : List (Word × List Char))
    (rank : ℚ) (guesses : List Word) (foils : List (Option (List Char))) :
    List (Word × CacheEntry) :=
  if wg.length > 1 then cache
  else
    match wg with
    | [] => freshNode rank guesses foils
    | (w, r) :: _ =>
      match alistFind w cache with
      | none => cache
      | some e =>
        let nt1 := if alistHasKey r e.next then e.next
          else (e.next ++ [(r, [])]).insertionSort
            fun p q => ¬ kLt (resultKey q.1) (resultKey p.1)
        let nt2 := alistSet r (freshNode rank guesses foils) nt1
        alistSet w (CacheEntry.mk e.rank e.foil nt2) cache

/-! ### Association list and sorting facts -/

theorem alistFind_alistSet_self {α β : Type} [DecidableEq α] (k : α) (v : β) :
    ∀ l : List (α × β), alistFind k (alistSet k v l) = some v := by
  intro l
  induction l with
  | nil =>
    show alistFind k [(k, v)] = some v
    unfold alistFind
    rw [if_pos rfl]
  | cons p rest ih =>
    obtain ⟨k2, v2⟩ := p
    show alistFind k (if k2 = k then (k2, v) :: rest else (k2, v2) :: alistSet k v rest)
      = some v
    by_cases h : k2 = k
    · rw [if_pos h]
      unfold alistFind
      rw [if_pos h]
    · rw [if_neg h]
      unfold alistFind
      rw [if_neg h]
      exact ih

theorem wordLeb_total : ∀ a b : Word, wordLeb a b = true ∨ wordLeb b a = true := by
  intro a
  induction a with
  | nil =>
    intro b
    exact Or.inl rfl
  | cons x as ih =>
    intro b
    cases b with
    | nil => exact Or.inr rfl
    | cons y bs =>
      rcases lt_trichotomy x y with h | h | h
      · left
        show (if x < y then true else if x = y then wordLeb as bs else false) = true
        rw [if_pos h]
      · subst h
        rcases ih bs with h2 | h2
        · left
          show (if x < x then true else if x = x then wordLeb as bs else false) = true
          rw [if_neg (lt_irrefl x), if_pos rfl]
          exact h2
        · right
          show (if x < x then true else if x = x then wordLeb bs as else false) = true
          rw [if_neg (lt_irrefl x), if_pos rfl]
          exact h2
      · right
        show (if y < x then true else if y = x then wordLeb bs as else false) = true
        rw [if_pos h]

theorem wordLeb_trans : ∀ a b c : Word, wordLeb a b = true → wordLeb b c = true →
    wordLeb a c = true := by
  intro a
  induction a with
  | nil =>
    intro b c _ _
    rfl
  | cons x as ih =>
    intro b c h1 h2
    cases b with
    | nil => exact absurd h1 (by simp [wordLeb])
    | cons y bs =>
      cases c with
      | nil => exact absurd h2 (by simp [wordLeb])
      | cons z cs =>
        show (if x < z then true else if x = z then wordLeb as cs else false) = true
        have h1' : (if x < y then true else if x = y then wordLeb as bs else false)
            = true := h1
        have h2' : (if y < z then true else if y = z then wordLeb bs cs else false)
            = true := h2
        by_cases hxy : x < y
        · by_cases hyz : y < z
          · rw [if_pos (lt_trans hxy hyz)]
          · by_cases hyz2 : y = z
            · rw [if_pos (hyz2 ▸ hxy)]
            · rw [if_neg hyz, if_neg hyz2] at h2'
              exact absurd h2' (by simp)
        · by_cases hxy2 : x = y
          · subst hxy2
            by_cases hyz : x < z
            · rw [if_pos hyz]
            · by_cases hyz2 : x = z
              · rw [if_neg hyz, if_pos hyz2]
                rw [if_neg hxy, if_pos rfl] at h1'
                rw [if_neg hyz, if_pos hyz2] at h2'
                exact ih bs cs h1' h2'
              · rw [if_neg hyz, if_neg hyz2] at h2'
                exact absurd h2' (by simp)
          · rw [if_neg hxy, if_neg hxy2] at h1'
            exact absurd h1' (by simp)

instance pairLe.isTotal : IsTotal (Word × Option (List Char)) pairLe :=
  ⟨fun p q => wordLeb_total p.1 q.1⟩

instance pairLe.isTrans : IsTrans (Word × Option (List Char)) pairLe :=
  ⟨fun p q r h1 h2 => wordLeb_trans p.1 q.1 r.1 h1 h2⟩

theorem collectLoop_const (rank : ℚ) :
    ∀ l : List (Word × CacheEntry), (∀ p ∈ l, p.2.rank = rank) →
      collectLoop l (some rank)
          = some (some rank, l.map Prod.fst, l.map fun p => p.2.foil) ∧
      (l ≠ [] → collectLoop l none
          = some (some rank, l.map Prod.fst, l.map fun p => p.2.foil)) := by
  intro l
  induction l with
  | nil =>
    intro _
    exact ⟨rfl, fun h => absurd rfl h⟩
  | cons p rest ih =>
    intro hall
    obtain ⟨g, e⟩ := p
    have hrk : e.rank = rank := hall (g, e) (List.mem_cons_self _ _)
    have hrest := ih fun q hq => hall q (List.mem_cons_of_mem _ hq)
    constructor
    · show (if rank = e.rank then
          match collectLoop rest (some rank) with
          | some (r2, gs, fs) => some (r2, g :: gs, e.foil :: fs)
          | none => none
        else none) = _
      rw [if_pos hrk.symm, hrest.1]
      rfl
    · intro _
      show (match collectLoop rest (some e.rank) with
          | some (r2, gs, fs) => some (r2, g :: gs, e.foil :: fs)
          | none => none) = _
      rw [hrk, hrest.1]
      rfl

theorem load_freshNode (rank : ℚ) (guesses : List Word) (foils : List (Option (List Char)))
    (hne : guesses.zip foils ≠ []) :
    collectLoop (freshNode rank guesses foils) none =
      some (some rank, (sortedPairs guesses foils).map Prod.fst,
        (sortedPairs guesses foils).map Prod.snd) := by
  have hall : ∀ p ∈ freshNode rank guesses foils, p.2.rank = rank := by
    intro p hp
    rw [freshNode, List.mem_map] at hp
    obtain ⟨q, _, hq⟩ := hp
    rw [← hq]
    rfl
  have hne2 : freshNode rank guesses foils ≠ [] := by
    rw [freshNode]
    intro hc
    rw [List.map_eq_nil_iff] at hc
    rw [sortedPairs] at hc
    have := List.perm_insertionSort pairLe (guesses.zip foils)
    rw [hc] at this
    exact hne (this.symm.eq_nil ▸ rfl)
  rw [(collectLoop_const rank (freshNode rank guesses foils) hall).2 hne2]
  rw [freshNode, List.map_map, List.map_map]
  rfl

/-- C8 counterexample: the round trip fails on a depth-1 context whose guessed
word is absent from the cache root — the save is silently dropped and the load
finds nothing — and on an empty guess list, whose rank is not recoverable. -/
theorem claim_C8_counterexample :
    load_guesses (save_guesses_model [] [(['a'], ['g'])] 1 [['a']] [none]) [(['a'], ['g'])]
      ≠ some (some 1, [['a']], [none]) ∧
    load_guesses (save_guesses_model [] [] 1 [] []) [] ≠ some (some 1, [], []) := by
  exact ⟨by decide, by decide⟩

/-- C8 (amended): the cache round-trip holds for depth ≤ 1 contexts provided
the depth-1 guessed word is already cached at the root, and the saved guess
list is non-empty: `load_guesses` after `save_guesses` returns the rank and
exactly the saved guesses with their parallel foils, reordered into
alphabetical order of guess word. -/
theorem claim_C8_roundtrip (cache : List (Word × CacheEntry))
    (wg : List (Word × List Char)) (rank : ℚ) (guesses : List Word)
    (foils : List (Option (List Char)))
    (hlen : guesses.length = foils.length) (hne : guesses ≠ [])
    (hdepth : wg = [] ∨ ∃ w r, wg = [(w, r)] ∧ (alistFind w cache).isSome = true) :
    load_guesses (save_guesses_model cache wg rank guesses foils) wg =
      some (some rank, (sortedPairs guesses foils).map Prod.fst,
        (sortedPairs guesses foils).map Prod.snd) ∧
    (sortedPairs guesses foils).Perm (guesses.zip foils) ∧
    (sortedPairs guesses foils).Pairwise pairLe := by
  have hzne : guesses.zip foils ≠ [] := by
    intro hc
    have hlz := congrArg List.length hc
    rw [List.length_zip, List.length_nil, ← hlen, Nat.min_self] at hlz
    exact hne (List.length_eq_zero.mp hlz)
  refine ⟨?_, List.perm_insertionSort pairLe (guesses.zip foils),
    List.sorted_insertionSort pairLe (guesses.zip foils)⟩
  rcases hdepth with h0 | ⟨w, r, hwg, hfind⟩
  · subst h0
    have hsave : save_guesses_model cache [] rank guesses foils
        = freshNode rank guesses foils := rfl
    rw [hsave]
    show (match cacheTraverse (freshNode rank guesses foils) [] with
      | none => some (none, [], [])
      | some node => collectLoop node none) = _
    rw [show cacheTraverse (freshNode rank guesses foils) []
      = some (freshNode rank guesses foils) from rfl]
    exact load_freshNode rank guesses foils hzne
  · subst hwg
    obtain ⟨e, he⟩ := Option.isSome_iff_exists.mp hfind
    have hsave : save_guesses_model cache [(w, r)] rank guesses foils
        = alistSet w (CacheEntry.mk e.rank e.foil
            (alistSet r (freshNode rank guesses foils)
              (if alistHasKey r e.next then e.next
               else (e.next ++ [(r, [])]).insertionSort
                 fun p q => ¬ kLt (resultKey q.1) (resultKey p.1)))) cache := by
      unfold save_guesses_model
      rw [if_neg (by simp)]
      dsimp only
      rw [he]
    rw [hsave]
    show (match cacheTraverse (alistSet w (CacheEntry.mk e.rank e.foil
        (alistSet r (freshNode rank guesses foils)
          (if alistHasKey r e.next then e.next
           else (e.next ++ [(r, [])]).insertionSort
             fun p q => ¬ kLt (resultKey q.1) (resultKey p.1)))) cache) [(w, r)] with
      | none => some (none, [], [])
      | some node => collectLoop node none) = _
    have htrav : cacheTraverse (alistSet w (CacheEntry.mk e.rank e.foil
        (alistSet r (freshNode rank guesses foils)
          (if alistHasKey r e.next then e.next
           else (e.next ++ [(r, [])]).insertionSort
             fun p q => ¬ kLt (resultKey q.1) (resultKey p.1)))) cache) [(w, r)]
        = some (freshNode rank guesses foils) := by
      show (match alistFind w (alistSet w (CacheEntry.mk e.rank e.foil
          (alistSet r (freshNode rank guesses foils)
            (if alistHasKey r e.next then e.next
             else (e.next ++ [(r, [])]).insertionSort
               fun p q => ¬ kLt (resultKey q.1) (resultKey p.1)))) cache) with
        | none => none
        | some e2 =>
          match alistFind r e2.next with
          | none => none
          | some node2 => cacheTraverse node2 []) = _
      rw [alistFind_alistSet_self]
      show (match alistFind r (alistSet r (freshNode rank guesses foils)
          (if alistHasKey r e.next then e.next
           else (e.next ++ [(r, [])]).insertionSort
             fun p q => ¬ kLt (resultKey q.1) (resultKey p.1))) with
        | none => none
        | some node2 => cacheTraverse node2 []) = _
      rw [alistFind_alistSet_self]
      rfl
    rw [htrav]
    exact load_freshNode rank guesses foils hzne

theorem claim_C8_witness :
    load_guesses (save_guesses_model [] [] 2 [['b'], ['a']] [none, some ['g']]) [] =
      some (some 2, (sortedPairs [['b'], ['a']] [none, some ['g']]).map Prod.fst,
        (sortedPairs [['b'], ['a']] [none, some ['g']]).map Prod.snd) ∧
    (sortedPairs [['b'], ['a']] [none, some ['g']]).Perm
      ([['b'], ['a']].zip [none, some ['g']]) ∧
    (sortedPairs [['b'], ['a']] [none, some ['g']]).Pairwise pairLe :=
  claim_C8_roundtrip [] [] 2 [['b'], ['a']] [none, some ['g']] (by decide) (by decide)
    (Or.inl rfl)

/-! ## Copy independence (`WordGroup.__init__` lines 99-144 and
`SolutionGroup.filter_solutions` lines 366-430)

The copy initializer gives the new group its own set object
(`word_list._word_list.copy()`), sharing only the statistics, which are used
immutably (`_prepare_stats` rebinds the attributes rather than mutating the
shared dicts).  `filter_solutions` mutates `self._word_list` in place through
`intersection_update` / `difference_update`.  We model the heap explicitly: a
store of set objects, and per group the index of the set it owns. -/

structure SolverHeap where
  sets : List (Finset Word)
  groups : List Nat

/-- The words of group `gid`: the set object its pointer designates. -/
def heapWords (h : SolverHeap) (gid : Nat) : Finset Word :=
  h.sets.getD (h.groups.getD gid 0) ∅

/-- `copy()`: allocate a fresh set object with the same words; the new group
points at the fresh object. -/
def copyGroup (h : SolverHeap) (gid : Nat) : SolverHeap × Nat :=
  (⟨h.sets ++ [heapWords h gid], h.groups ++ [h.sets.length]⟩, h.groups.length)

/-- `filter_solutions(guess, result)` as a heap operation: the set object the
group owns is updated in place to the filtered words. -/
def filterSolutionsOp (h : SolverHeap) (gid : Nat) (g r : Word) : SolverHeap :=
  ⟨h.sets.set (h.groups.getD gid 0) (filter_solutions g r (heapWords h gid)), h.groups⟩

theorem getD_append_length {α : Type} (l : List α) (x : α) (d : α) :
    (l ++ [x]).getD l.length d = x := by
  rw [List.getD_eq_getElem?_getD, List.getElem?_append_right (le_refl l.length)]
  simp

/-- C10: copy independence of restriction — copying a solution group and
filtering the copy leaves the original group with the same member set, the
same length, and the same containment answers. -/
theorem claim_C10_copy_independence (h : SolverHeap) (gid : Nat) (g r : Word)
    (hvalid : ∀ i ∈ h.groups, i < h.sets.length) (hgid : gid < h.groups.length) :
    heapWords (filterSolutionsOp (copyGroup h gid).1 (copyGroup h gid).2 g r) gid
      = heapWords h gid ∧
    (heapWords (filterSolutionsOp (copyGroup h gid).1 (copyGroup h gid).2 g r) gid).card
      = (heapWords h gid).card ∧
    ∀ w : Word,
      w ∈ heapWords (filterSolutionsOp (copyGroup h gid).1 (copyGroup h gid).2 g r) gid
        ↔ w ∈ heapWords h gid := by
  have hi : h.groups.getD gid 0 < h.sets.length := by
    apply hvalid
    rw [List.getD_eq_getElem?_getD, List.getElem?_eq_getElem hgid]
    exact List.getElem_mem hgid
  have hmain : heapWords (filterSolutionsOp (copyGroup h gid).1 (copyGroup h gid).2 g r) gid
      = heapWords h gid := by
    show (((h.sets ++ [heapWords h gid]).set
        ((h.groups ++ [h.sets.length]).getD (h.groups.length) 0) _).getD
        ((h.groups ++ [h.sets.length]).getD gid 0) ∅) = _
    have hptr2 : (h.groups ++ [h.sets.length]).getD (h.groups.length) 0 = h.sets.length :=
      getD_append_length h.groups h.sets.length 0
    have hptr1 : (h.groups ++ [h.sets.length]).getD gid 0 = h.groups.getD gid 0 := by
      rw [List.getD_eq_getElem?_getD, List.getD_eq_getElem?_getD,
        List.getElem?_append_left hgid]
    rw [hptr2, hptr1]
    rw [List.getD_eq_getElem?_getD, List.getElem?_set_ne (by omega)]
    rw [List.getElem?_append_left hi]
    simp [heapWords, List.getD_eq_getElem?_getD]
  exact ⟨hmain, by rw [hmain], fun w => by rw [hmain]⟩

theorem claim_C10_witness :
    heapWords (filterSolutionsOp
        (copyGroup ⟨[{['a', 'a'], ['a', 'b']}], [0]⟩ 0).1
        (copyGroup ⟨[{['a', 'a'], ['a', 'b']}], [0]⟩ 0).2 ['a', 'a'] ['g', 'b']) 0
      = heapWords ⟨[{['a', 'a'], ['a', 'b']}], [0]⟩ 0 ∧
    (heapWords (filterSolutionsOp
        (copyGroup ⟨[{['a', 'a'], ['a', 'b']}], [0]⟩ 0).1
        (copyGroup ⟨[{['a', 'a'], ['a', 'b']}], [0]⟩ 0).2 ['a', 'a'] ['g', 'b']) 0).card
      = (heapWords ⟨[{['a', 'a'], ['a', 'b']}], [0]⟩ 0).card ∧
    ∀ w : Word,
      w ∈ heapWords (filterSolutionsOp
          (copyGroup ⟨[{['a', 'a'], ['a', 'b']}], [0]⟩ 0).1
          (copyGroup ⟨[{['a', 'a'], ['a', 'b']}], [0]⟩ 0).2 ['a', 'a'] ['g', 'b']) 0
        ↔ w ∈ heapWords ⟨[{['a', 'a'], ['a', 'b']}], [0]⟩ 0 :=
  claim_C10_copy_independence ⟨[{['a', 'a'], ['a', 'b']}], [0]⟩ 0 ['a', 'a'] ['g', 'b']
    (by decide) (by decide)

end WordleSolver
